import Mathlib

/-!
# Verification of `pyhawkes/models.py`

Shallow embedding of the discrete-time Hawkes process models of
`pyhawkes/models.py` (classes `DiscreteTimeStandardHawkesModel`,
`_DiscreteTimeNetworkHawkesModelBase`, `DiscreteTimeNetworkHawkesModelGibbs`,
`DiscreteTimeNetworkHawkesModelMeanField`), together with proofs about them.

Conventions:
* NumPy float arrays are embedded as functions into a linear ordered field
  `α` (instantiated with `ℝ` or, for executable witnesses, `ℚ`); integer
  count arrays as functions into `ℤ`.
* Array shapes are captured by `Fin`-indexed types, so `isinstance`/`ndim`/
  `shape` assertions hold by construction and are noted in comments.
* NumPy reductions (`np.amin`, `np.amax`, `np.sum(axis=..)`) raise on
  zero-size input or out-of-range axes; they are embedded as `Except`-valued
  functions so those errors are represented faithfully.
* Python `assert cond, msg` is embedded as an `Except String` error when the
  condition fails; a NumPy error raised while evaluating `cond` propagates.
-/

namespace PyHawkes

variable {α : Type} [LinearOrderedField α]

/-! ## Definitions: shallow embedding of `pyhawkes/models.py` -/

/-- `np.amin` of a 2-d array: the least entry; raises a `ValueError` on a
zero-size array. -/
def npAminMat {a b : ℕ} (X : Matrix (Fin a) (Fin b) α) : Except String α :=
  if h : 0 < a ∧ 0 < b then
    Except.ok ((Finset.univ : Finset (Fin a × Fin b)).inf'
      (Finset.univ_nonempty_iff.mpr ⟨⟨⟨0, h.1⟩, ⟨0, h.2⟩⟩⟩) (fun q => X q.1 q.2))
  else
    Except.error "zero-size array to reduction operation minimum which has no identity"

/-- `np.amax` of a 2-d array: the greatest entry; raises on a zero-size array. -/
def npAmaxMat {a b : ℕ} (X : Matrix (Fin a) (Fin b) α) : Except String α :=
  if h : 0 < a ∧ 0 < b then
    Except.ok ((Finset.univ : Finset (Fin a × Fin b)).sup'
      (Finset.univ_nonempty_iff.mpr ⟨⟨⟨0, h.1⟩, ⟨0, h.2⟩⟩⟩) (fun q => X q.1 q.2))
  else
    Except.error "zero-size array to reduction operation maximum which has no identity"

/-- `np.amin` of a 1-d array. -/
def npAminVec {a : ℕ} (x : Fin a → α) : Except String α :=
  if h : 0 < a then
    Except.ok ((Finset.univ : Finset (Fin a)).inf'
      (Finset.univ_nonempty_iff.mpr ⟨⟨0, h⟩⟩) x)
  else
    Except.error "zero-size array to reduction operation minimum which has no identity"

/-- `np.amax` of a 1-d array. -/
def npAmaxVec {a : ℕ} (x : Fin a → α) : Except String α :=
  if h : 0 < a then
    Except.ok ((Finset.univ : Finset (Fin a)).sup'
      (Finset.univ_nonempty_iff.mpr ⟨⟨0, h⟩⟩) x)
  else
    Except.error "zero-size array to reduction operation maximum which has no identity"

/-- `np.amin` of a 2-d integer array. -/
def npAminMatZ {a b : ℕ} (X : Matrix (Fin a) (Fin b) ℤ) : Except String ℤ :=
  if h : 0 < a ∧ 0 < b then
    Except.ok ((Finset.univ : Finset (Fin a × Fin b)).inf'
      (Finset.univ_nonempty_iff.mpr ⟨⟨⟨0, h.1⟩, ⟨0, h.2⟩⟩⟩) (fun q => X q.1 q.2))
  else
    Except.error "zero-size array to reduction operation minimum which has no identity"

/-- Scalar `np.allclose(a, b)` with NumPy default tolerances
`rtol=1e-05`, `atol=1e-08`: `|a - b| <= atol + rtol * |b|`. -/
def npAllclose (a b : α) : Prop :=
  |a - b| ≤ 1 / 100000000 + (1 / 100000) * |b|

instance (a b : α) : Decidable (npAllclose a b) := by
  unfold npAllclose; infer_instance

structure StandardModel (K B : ℕ) (α : Type) where
  dt : α
  dt_max : α
  l2_penalty : α
  l1_penalty : α
  weights : Matrix (Fin K) (Fin (1 + K * B)) α

/-- Flattened index of basis coefficient `b` of source process `j` in a row of
`weights` (row-major C order of the reshape `(K, K*B) -> (K, K, B)`). -/
def rIdx {K B : ℕ} (j : Fin K) (b : Fin B) : Fin (1 + K * B) :=
  ⟨1 + (j.1 * B + b.1), by
    have hb : j.1 * B + b.1 < (j.1 + 1) * B := by
      have := b.2
      calc j.1 * B + b.1 < j.1 * B + B := by omega
      _ = (j.1 + 1) * B := by ring
    have hj : (j.1 + 1) * B ≤ K * B := Nat.mul_le_mul_right B j.2
    omega⟩

/-- `WB = self.weights[:,1:].reshape((K, K, B))` in the `W` property. -/
def stdWB {K B : ℕ} (m : StandardModel K B α) (i j : Fin K) (b : Fin B) : α :=
  m.weights i (rIdx j b)

/-- `WT = WB.sum(axis=2)`. -/
def stdWT {K B : ℕ} (m : StandardModel K B α) : Matrix (Fin K) (Fin K) α :=
  fun i j => ∑ b, stdWB m i j b

/-- `W = WT.T`: the `W` property of `DiscreteTimeStandardHawkesModel`
(outgoing x incoming). -/
def stdW {K B : ℕ} (m : StandardModel K B α) : Matrix (Fin K) (Fin K) α :=
  Matrix.transpose (stdWT m)

/-- Any index in the slice `weights[kin, 1+kout*B : 1+(kout+1)*B]` is a valid
column index of `weights`. -/
def slice_lt {K B : ℕ} (kout : Fin K) (x : ℕ)
    (hx : x ∈ Finset.Ico (1 + kout.1 * B) (1 + (kout.1 + 1) * B)) : x < 1 + K * B := by
  have h2 := (Finset.mem_Ico.mp hx).2
  have hj : (kout.1 + 1) * B ≤ K * B := Nat.mul_le_mul_right B kout.2
  omega

/-- The manual reconstruction in the `W` property:
`Wmanual[kout,kin] = self.weights[kin, 1+kout*B : 1+(kout+1)*B].sum()`. -/
def stdWmanual {K B : ℕ} (m : StandardModel K B α) : Matrix (Fin K) (Fin K) α :=
  fun kout kin =>
    ∑ x ∈ (Finset.Ico (1 + kout.1 * B) (1 + (kout.1 + 1) * B)).attach,
      m.weights kin ⟨x.1, slice_lt kout x.1 x.2⟩

/-- Result of `np.sum(X, axis=axis)` on a 2-d array: a 1-d array along the
surviving dimension, or an axis-out-of-bounds error. -/
inductive NpSum2dResult (m n : ℕ) (α : Type) : Type where
  | axis0 : (Fin n → α) → NpSum2dResult m n α
  | axis1 : (Fin m → α) → NpSum2dResult m n α

/-- `np.sum(X, axis=axis)` for a 2-d array `X`; NumPy raises `AxisError` when
`axis` is not a valid axis of the 2-dimensional input. -/
def npSum2d {m n : ℕ} (X : Matrix (Fin m) (Fin n) α) (axis : ℕ) :
    Except String (NpSum2dResult m n α) :=
  if axis = 0 then Except.ok (NpSum2dResult.axis0 (fun j => ∑ i, X i j))
  else if axis = 1 then Except.ok (NpSum2dResult.axis1 (fun i => ∑ j, X i j))
  else Except.error "axis 2 is out of bounds for array of dimension 2"

/-- `DiscreteTimeStandardHawkesModel.check_stability`: the body first computes
`W_eff = self.weights.sum(axis=2)`; `self.weights` is the 2-d
`K x (1 + K*B)` array, so this reduction raises before anything else runs.
The rest of the body (`np.linalg.eigvals`, `np.amax(np.real(...))` and the
comparison with `1.0`) is modelled by the continuation `rest`, which is never
reached. -/
def stdCheckStability {K B : ℕ} (m : StandardModel K B α)
    (rest : NpSum2dResult K (1 + K * B) α → Except String Bool) : Except String Bool := do
  let weff ← npSum2d m.weights 2
  rest weff

/-- Concrete standard model used by executable witnesses. -/
def stdEx : StandardModel 1 1 ℚ :=
  ⟨1, 10, 0, 0, fun _ _ => 1⟩

structure Dataset (K B : ℕ) (α : Type) where
  T : ℕ
  S : Matrix (Fin T) (Fin K) ℤ
  N : Fin K → ℤ
  F : Fin T → Fin K → Fin B → α

structure NetworkModel (K B C : ℕ) (α : Type) where
  dt : α
  dt_max : α
  A : Matrix (Fin K) (Fin K) α
  W : Matrix (Fin K) (Fin K) α
  g : Fin K → Fin K → Fin B → α
  lambda0 : Fin K → α
  c : Fin K → α
  p : Matrix (Fin C) (Fin C) α
  v : Matrix (Fin C) (Fin C) α
  m : Fin C → α
  data_list : List (Dataset K B α)

/-- The canonical parameter tuple `(A, W, g, lambda0, c, p, v, m)`. -/
structure Params (K B C : ℕ) (α : Type) where
  A : Matrix (Fin K) (Fin K) α
  W : Matrix (Fin K) (Fin K) α
  g : Fin K → Fin K → Fin B → α
  lambda0 : Fin K → α
  c : Fin K → α
  p : Matrix (Fin C) (Fin C) α
  v : Matrix (Fin C) (Fin C) α
  m : Fin C → α

/-- `get_parameters`: returns the tuple of the current parameter fields. -/
def get_parameters {K B C : ℕ} (M : NetworkModel K B C α) : Params K B C α :=
  ⟨M.A, M.W, M.g, M.lambda0, M.c, M.p, M.v, M.m⟩

/-- `set_parameters`: unpacks `(A, W, beta, lambda0, c, p, v, m)`, checks each
field with an `assert`, then stores all eight fields.  The `isinstance` and
`.shape` conjuncts of each assertion hold by construction here (shapes are
types); the value conjuncts (`np.amin`, `np.amax`, `np.allclose`) are checked
in source order.  Note the assertion on `A` has no value conjunct: only the
shape of `A` is checked. -/
def set_parameters {K B C : ℕ} (M : NetworkModel K B C α) (P : Params K B C α) :
    Except String (NetworkModel K B C α) := do
  -- assert isinstance(A, np.ndarray) and A.shape == (K,K): type-level only
  let wmin ← npAminMat P.W
  if ¬ (0 ≤ wmin) then throw "W must be a KxK weight matrix" else
  -- np.allclose(beta.sum(axis=2), 1.0)
  if ¬ (∀ i j : Fin K, npAllclose (∑ b, P.g i j b) 1) then
    throw "beta must be a KxKxB impulse response array" else do
  let lmin ← npAminVec P.lambda0
  if ¬ (0 ≤ lmin) then throw "lambda0 must be a K-vector of background rates" else do
  let cmin ← npAminVec P.c
  let cmax ← npAmaxVec P.c
  if ¬ (0 ≤ cmin ∧ cmax < (C : α)) then
    throw "c must be a K-vector of block assignments" else do
  let pmin ← npAminMat P.p
  let pmax ← npAmaxMat P.p
  if ¬ (0 ≤ pmin ∧ pmax ≤ 1) then
    throw "p must be a CxC matrix block connection probabilities" else do
  let vmin ← npAminMat P.v
  if ¬ (0 ≤ vmin) then throw "v must be a CxC matrix block weight scales" else do
  let mmin ← npAminVec P.m
  if ¬ (0 ≤ mmin ∧ npAllclose (∑ i, P.m i) 1) then
    throw "m must be a C vector of block probabilities" else
  pure { M with A := P.A, W := P.W, g := P.g, lambda0 := P.lambda0,
                c := P.c, p := P.p, v := P.v, m := P.m }

/-- The rate contraction shared by both branches of `compute_rate`:
`R[t,k2] = lambda0[k2] + sum over (k,b) of F[t,k,b] * (A[k,k2]*W[k,k2]*g[k,k2,b])`
(background rate plus `tensordot` of the features with
`H = A[:,:,None]*W[:,:,None]*g` transposed to `[2,0,1]`). -/
def rate_formula {K B T : ℕ} (A W : Matrix (Fin K) (Fin K) α)
    (g : Fin K → Fin K → Fin B → α) (lambda0 : Fin K → α)
    (F : Fin T → Fin K → Fin B → α) : Matrix (Fin T) (Fin K) α :=
  fun t k2 => lambda0 k2 + ∑ k, ∑ b, F t k b * (A k k2 * W k k2 * g k k2 b)

/-- `compute_rate(index)` with `proc=None` on a stored dataset. -/
def compute_rate {K B C : ℕ} (M : NetworkModel K B C α) (d : Dataset K B α) :
    Matrix (Fin d.T) (Fin K) α :=
  rate_formula M.A M.W M.g M.lambda0 d.F

/-- `compute_rate(index, proc)` on a stored dataset for a single process:
`R[t] = lambda0[proc] + tensordot(F, A[:,proc,None]*W[:,proc,None]*g[:,proc,:])`. -/
def compute_rate_proc {K B C : ℕ} (M : NetworkModel K B C α) (d : Dataset K B α)
    (proc : Fin K) : Fin d.T → α :=
  fun t => M.lambda0 proc + ∑ k, ∑ b, d.F t k b * (M.A k proc * M.W k proc * M.g k proc b)

/-- The conjunction of the value checks actually performed by
`set_parameters` (note: nothing about the entries of `A`). -/
def params_ok {K B C : ℕ} (P : Params K B C α) : Prop :=
  0 < K ∧ 0 < C ∧
  (∀ i j, 0 ≤ P.W i j) ∧
  (∀ i j : Fin K, npAllclose (∑ b, P.g i j b) 1) ∧
  (∀ k, 0 ≤ P.lambda0 k) ∧
  (∀ k, 0 ≤ P.c k) ∧ (∀ k, P.c k < (C : α)) ∧
  (∀ i j, 0 ≤ P.p i j) ∧ (∀ i j, P.p i j ≤ 1) ∧
  (∀ i j, 0 ≤ P.v i j) ∧
  (∀ i, 0 ≤ P.m i) ∧ npAllclose (∑ i, P.m i) 1

instance {K B C : ℕ} (P : Params K B C α) : Decidable (params_ok P) := by
  unfold params_ok; infer_instance

/-- The model state after a successful `set_parameters`: all eight parameter
fields stored, everything else untouched. -/
def store_params {K B C : ℕ} (M : NetworkModel K B C α) (P : Params K B C α) :
    NetworkModel K B C α :=
  { M with A := P.A, W := P.W, g := P.g, lambda0 := P.lambda0,
           c := P.c, p := P.p, v := P.v, m := P.m }

/-- Concrete network model used by executable witnesses (valid parameters). -/
def netEx : NetworkModel 1 1 1 ℚ :=
  ⟨1, 10, fun _ _ => 0, fun _ _ => 0, fun _ _ _ => 1, fun _ => 1,
   fun _ => 0, fun _ _ => 1/2, fun _ _ => 1, fun _ => 1, []⟩

/-- Concrete stored dataset used by executable witnesses. -/
def dsEx : Dataset 1 1 ℚ :=
  ⟨1, fun _ _ => 0, fun _ => 0, fun _ _ _ => 0⟩

/-- A parameter tuple whose adjacency entry is `2` (not binary) while every
field that `set_parameters` actually checks is in range. -/
def badParams : Params 1 1 1 ℚ :=
  ⟨fun _ _ => 2, fun _ _ => 0, fun _ _ _ => 1, fun _ => 0,
   fun _ => 0, fun _ _ => 1/2, fun _ _ => 0, fun _ => 1⟩

/-- `_DiscreteTimeNetworkHawkesModelBase.add_data`: validates `S` (the
`isinstance`, `ndim`, `shape[1]` and dtype conjuncts are type-level here; the
`np.amin(S) >= 0` conjunct raises a `ValueError` on a zero-size array before
the comparison is made), computes `N = S.sum(axis=0)`, filters the data with
the basis into `F` (the basis transform is the external collaborator
`convolve`), instantiates and resamples a parents object (internal state with
no effect on the fields modelled here), and appends `(S, N, F, parents)` to
the data list. -/
def add_data {K B C T : ℕ} (M : NetworkModel K B C α)
    (convolve : Matrix (Fin T) (Fin K) ℤ → (Fin T → Fin K → Fin B → α))
    (S : Matrix (Fin T) (Fin K) ℤ) : Except String (NetworkModel K B C α) := do
  let smin ← npAminMatZ S
  if ¬ (0 ≤ smin) then throw "Data must be a TxK array of event counts" else
  pure { M with data_list := M.data_list ++ [⟨T, S, fun k => ∑ t, S t k, convolve S⟩] }

/-- The time-bin loop of `generate`: at bin `t`, draw
`S[t,:] = np.random.poisson(R[t,:]*dt)` (the draw is modelled by the oracle
`poisson`, a function of the bin, the process and the mean), then for each
process `k` with `S[t,k] > 0` add `S[t,k] * H[:,k,:]` to the rate window
`R[t+1 : t+L+1, :]` (a zero count adds zero, so the positivity guard is
absorbed into the added term); the spike-limit check only flags, it does not
raise.  Returns the sampled rows and the final rate array. -/
def gen_go {K : ℕ} (H : ℕ → Fin K → Fin K → α) (dt : α) (L : ℕ)
    (poisson : ℕ → Fin K → α → ℕ) :
    ℕ → ℕ → (ℕ → Fin K → α) → (List (Fin K → ℕ) × (ℕ → Fin K → α))
  | 0, _, R => ([], R)
  | n + 1, t, R =>
      let Srow : Fin K → ℕ := fun k => poisson t k (R t k * dt)
      let Rupd : ℕ → Fin K → α := fun u k2 =>
        R u k2 + ∑ k, (if t + 1 ≤ u ∧ u ≤ t + L then (Srow k : α) * H (u - (t + 1)) k k2 else 0)
      let rest := gen_go H dt L poisson n (t + 1) Rupd
      (Srow :: rest.1, rest.2)

/-- `generate(keep, T)`: `assert isinstance(T, int)` is type-level;
`self.check_stability()` only prints; the impulse responses are precomputed as
`H = A[None,:,:] * W[None,:,:] * G` with
`G = tensordot(self.basis.basis, g, axes=([1],[2]))` (the basis array is the
external collaborator `basisArr`, of length `L` bins); the rate starts at the
background rate; the loop runs for `T` bins; finally `S = S[:T,:].astype(int)`
and `R = R[:T,:]`, and when `keep` holds the generated counts are passed to
`add_data`. -/
def generate {K B C : ℕ} (M : NetworkModel K B C α) {T : ℕ}
    (convolve : Matrix (Fin T) (Fin K) ℤ → (Fin T → Fin K → Fin B → α))
    (basisArr : ℕ → Fin B → α) (L : ℕ) (poisson : ℕ → Fin K → α → ℕ)
    (keep : Bool) :
    Except String (Matrix (Fin T) (Fin K) ℤ × Matrix (Fin T) (Fin K) α ×
      NetworkModel K B C α) := do
  let G : ℕ → Fin K → Fin K → α := fun l k k2 => ∑ b, basisArr l b * M.g k k2 b
  let H : ℕ → Fin K → Fin K → α := fun l k k2 => M.A k k2 * M.W k k2 * G l k k2
  let R0 : ℕ → Fin K → α := fun _ k => M.lambda0 k
  let res := gen_go H M.dt L poisson T 0 R0
  let S : Matrix (Fin T) (Fin K) ℤ := fun t k => ((res.1.getD t.1 (fun _ => 0)) k : ℤ)
  let R : Matrix (Fin T) (Fin K) α := fun t k => res.2 t.1 k
  if keep then do
    let Mk ← add_data M convolve S
    pure (S, R, Mk)
  else
    pure (S, R, M)

/-- The update steps of one Gibbs sweep, as recorded in execution order
(`parent i` resamples the parents of the `i`-th registered dataset). -/
inductive GibbsEvent : Type where
  | bias : GibbsEvent
  | impulse : GibbsEvent
  | weight : GibbsEvent
  | parent : ℕ → GibbsEvent
  | network : GibbsEvent
  deriving DecidableEq

/-- The latent state mutated by `resample_model`: the four component models
and the parent object of each stored dataset. -/
structure GibbsState (β ι ω ν π : Type) where
  bias : β
  impulse : ι
  weight : ω
  network : ν
  parents : List π

/-- The component resampling routines called by `resample_model`.  They live
in `pyhawkes.internals.*` (not part of the sources), so they are abstract
here, but each is applied to exactly the arguments the source passes: the
bias update consumes the parents' background statistics (`Z0`), the impulse
update their `Z`, the weight update the model (in particular the current
network) together with `N` and `Z`, each parent update the bias, weight and
impulse models, and the network update the weight model (its `(A, W)`). -/
structure GibbsInternals (β ι ω ν π : Type) where
  bias_resample : List π → β → β
  impulse_resample : List π → ι → ι
  weight_resample : List π → ν → ω → ω
  parent_resample : β → ω → ι → π → π
  network_resample : ω → ν → ν

/-- `resample_model`: resample the bias from the parents assigned to the
background, then the impulse responses from the parent assignments, then the
weights (conditioned on the current network), then — immediately following
the weight update — the parents of every dataset from the just-updated bias,
weight and impulse models, then the network from the current `(A, W)`.
Also returns the trace of the updates in execution order. -/
def resample_model {β ι ω ν π : Type} (I : GibbsInternals β ι ω ν π)
    (s : GibbsState β ι ω ν π) : GibbsState β ι ω ν π × List GibbsEvent :=
  let b := I.bias_resample s.parents s.bias
  let im := I.impulse_resample s.parents s.impulse
  let w := I.weight_resample s.parents s.network s.weight
  let ps := s.parents.map (I.parent_resample b w im)
  let nw := I.network_resample w s.network
  (⟨b, im, w, nw, ps⟩,
   [GibbsEvent.bias, GibbsEvent.impulse, GibbsEvent.weight] ++
     (List.range s.parents.length).map GibbsEvent.parent ++ [GibbsEvent.network])

/-- Concrete trivial Gibbs internals for the executable witness. -/
def gibbsIEx : GibbsInternals Unit Unit Unit Unit Unit :=
  ⟨fun _ _ => (), fun _ _ => (), fun _ _ _ => (), fun _ _ _ _ => (), fun _ _ => ()⟩

/-- Concrete Gibbs state (one registered dataset) for the executable witness. -/
def gibbsSEx : GibbsState Unit Unit Unit Unit Unit := ⟨(), (), (), (), [()]⟩

/-- Modelled from the spec: the mean-field updates of the parent, bias,
impulse, weight and network factors are implemented in
`pyhawkes.internals.*`, which is not part of the sources.  Per the spec they
are exact coordinate-ascent updates of one shared variational lower bound
(`get_vlb`), so each abstract update comes with the coordinate-ascent
property: it never decreases the VLB.  `vlb` is the total bound returned by
`get_vlb` (per-dataset parent terms plus each factor's own term). -/
structure MeanFieldInternals (σ : Type) where
  update_parents : σ → σ
  update_bias : σ → σ
  update_impulse : σ → σ
  update_weight : σ → σ
  update_network : σ → σ
  vlb : σ → ℝ
  ascent_parents : ∀ s, vlb s ≤ vlb (update_parents s)
  ascent_bias : ∀ s, vlb s ≤ vlb (update_bias s)
  ascent_impulse : ∀ s, vlb s ≤ vlb (update_impulse s)
  ascent_weight : ∀ s, vlb s ≤ vlb (update_weight s)
  ascent_network : ∀ s, vlb s ≤ vlb (update_network s)

/-- `meanfield_coordinate_descent_step`: update the parents of every dataset,
then the bias, impulse, weight and network factors in that order, and return
`self.get_vlb()` together with the new state. -/
def meanfield_coordinate_descent_step {σ : Type} (I : MeanFieldInternals σ)
    (s : σ) : ℝ × σ :=
  let s1 := I.update_parents s
  let s2 := I.update_bias s1
  let s3 := I.update_impulse s2
  let s4 := I.update_weight s3
  let s5 := I.update_network s4
  (I.vlb s5, s5)

/-- The state after `n` consecutive calls of
`meanfield_coordinate_descent_step` on a fixed registered dataset. -/
def mf_iterate {σ : Type} (I : MeanFieldInternals σ) (s : σ) : ℕ → σ
  | 0 => s
  | n + 1 => (meanfield_coordinate_descent_step I (mf_iterate I s n)).2

/-- Concrete trivial mean-field internals for the executable witness. -/
def mfIEx : MeanFieldInternals Unit :=
  ⟨id, id, id, id, id, fun _ => 0,
   fun _ => le_refl _, fun _ => le_refl _, fun _ => le_refl _,
   fun _ => le_refl _, fun _ => le_refl _⟩

/-- `scipy.special.gammaln`: the log of the Gamma function. -/
noncomputable def gammaln (x : ℝ) : ℝ := Real.log (Real.Gamma x)

/-- `_poisson_log_likelihood(S, R)`:
`(-gammaln(S+1) + S * np.log(R*self.dt) - R*self.dt).sum()`. -/
noncomputable def poisson_log_likelihood {K T : ℕ} (dt : ℝ)
    (S : Matrix (Fin T) (Fin K) ℤ) (R : Matrix (Fin T) (Fin K) ℝ) : ℝ :=
  ∑ t, ∑ k,
    (-(gammaln ((S t k : ℝ) + 1)) + (S t k : ℝ) * Real.log (R t k * dt) - R t k * dt)

/-- `compute_rate` threaded through the model state: the body only reads
attributes and writes locals (`T`, `K`, `F`, `R`, `H`), so the state it
leaves behind is the state it received, and the returned rate is rebuilt from
the current parameter fields (there is no stored rate attribute in the model
state to read back). -/
def compute_rate_st {K B C : ℕ} (M : NetworkModel K B C α) (d : Dataset K B α) :
    Matrix (Fin d.T) (Fin K) α × NetworkModel K B C α :=
  (compute_rate M d, M)

/-- `heldout_log_likelihood(S)` threaded through the model state: computes
`R = compute_rate(S=S)` — rebuilding the feature tensor through the basis
collaborator `convolve` — then the Poisson log likelihood; nothing is
mutated. -/
noncomputable def heldout_log_likelihood_st {K B C T : ℕ} (M : NetworkModel K B C ℝ)
    (convolve : Matrix (Fin T) (Fin K) ℤ → (Fin T → Fin K → Fin B → ℝ))
    (S : Matrix (Fin T) (Fin K) ℤ) : ℝ × NetworkModel K B C ℝ :=
  (poisson_log_likelihood M.dt S (rate_formula M.A M.W M.g M.lambda0 (convolve S)), M)

/-- `log_likelihood()` threaded through the model state: sums the Poisson log
likelihood of every stored dataset against its freshly recomputed rate;
nothing is mutated. -/
noncomputable def log_likelihood_st {K B C : ℕ} (M : NetworkModel K B C ℝ) :
    ℝ × NetworkModel K B C ℝ :=
  ((M.data_list.map (fun d => poisson_log_likelihood M.dt d.S (compute_rate M d))).sum, M)

/-- Concrete real-valued network model for the C10 witness. -/
noncomputable def netExR : NetworkModel 1 1 1 ℝ :=
  ⟨1, 10, fun _ _ => 0, fun _ _ => 0, fun _ _ _ => 1, fun _ => 1,
   fun _ => 0, fun _ _ => 1/2, fun _ _ => 1, fun _ => 1, []⟩

/-- Concrete real-valued dataset for the C10 witness. -/
def dsExR : Dataset 1 1 ℝ :=
  ⟨1, fun _ _ => 0, fun _ => 0, fun _ _ _ => 0⟩

/-- Concrete basis collaborator and heldout count matrix for the C10 witness. -/
def convExR : Matrix (Fin 1) (Fin 1) ℤ → (Fin 1 → Fin 1 → Fin 1 → ℝ) :=
  fun _ _ _ _ => 0

def sExR : Matrix (Fin 1) (Fin 1) ℤ := fun _ _ => 0


/-! ### Eigenvalues and stability of the network model (claim C1) -/

/-- `np.linalg.eigvals` idealized: the eigenvalues, with algebraic
multiplicity, of a real matrix — the complex roots of its characteristic
polynomial. -/
noncomputable def np_eigvals {K : ℕ} (M : Matrix (Fin K) (Fin K) ℝ) : Multiset ℂ :=
  ((M.map (fun a : ℝ => (a : ℂ))).charpoly).roots

/-- `np.amax(np.real(eigs))` over the eigenvalue array (meaningful for
`K >= 1`; on an empty array the NumPy reduction would raise). -/
noncomputable def np_amax_re {K : ℕ} (M : Matrix (Fin K) (Fin K) ℝ) : ℝ :=
  sSup {x : ℝ | ∃ z ∈ np_eigvals M, z.re = x}

/-- The spectral radius: the largest modulus of an eigenvalue. -/
noncomputable def spectral_radius {K : ℕ} (M : Matrix (Fin K) (Fin K) ℝ) : ℝ :=
  sSup {x : ℝ | ∃ z ∈ np_eigvals M, Complex.abs z = x}

/-- NumPy elementwise (Hadamard) product `A * W`. -/
def elem_mul {K : ℕ} (A W : Matrix (Fin K) (Fin K) α) : Matrix (Fin K) (Fin K) α :=
  fun i j => A i j * W i j

/-- `_DiscreteTimeNetworkHawkesModelBase.check_stability`: computes
`eigs = np.linalg.eigvals(self.weight_model.A * self.weight_model.W)`
(elementwise product), prints the largest real part, and returns
`maxeig < 1.0`. -/
noncomputable def network_check_stability {K B C : ℕ} (M : NetworkModel K B C ℝ) : Prop :=
  np_amax_re (elem_mul M.A M.W) < 1

/-! ## Theorems -/

/-- C5: for every `K >= 1`, `B >= 1` and every `K x (1 + K*B)` weights array of
a `DiscreteTimeStandardHawkesModel`, the weight matrix produced by the `W`
property (reshape the per-basis block to `K x K x B`, sum over the basis axis,
transpose) equals, at every entry `(kout, kin)`, the manual sum of
`weights[kin, 1 + kout*B : 1 + (kout+1)*B]`. -/
theorem stdW_eq_stdWmanual {K B : ℕ} (hK : 0 < K) (hB : 0 < B)
    (m : StandardModel K B α) :
    ∀ kout kin, stdW m kout kin = stdWmanual m kout kin := by
  intro kout kin
  have hlen : 1 + (kout.1 + 1) * B - (1 + kout.1 * B) = B := by
    have : (kout.1 + 1) * B = kout.1 * B + B := by ring
    omega
  calc stdW m kout kin
      = ∑ b : Fin B, m.weights kin (rIdx kout b) := rfl
    _ = ∑ b ∈ Finset.range B,
          (if h : 1 + kout.1 * B + b < 1 + K * B then m.weights kin ⟨1 + kout.1 * B + b, h⟩
           else 0) := by
        rw [Finset.sum_range fun b => _]
        refine Finset.sum_congr rfl fun b _ => ?_
        have hb : 1 + kout.1 * B + b.1 < 1 + K * B := by
          have := (rIdx kout b).2
          simpa [rIdx, Nat.add_assoc] using this
        rw [dif_pos hb]
        congr 1
        exact Fin.ext (by simp [rIdx]; omega)
    _ = ∑ x ∈ Finset.Ico (1 + kout.1 * B) (1 + (kout.1 + 1) * B),
          (if h : x < 1 + K * B then m.weights kin ⟨x, h⟩ else 0) := by
        rw [Finset.sum_Ico_eq_sum_range, hlen]
    _ = stdWmanual m kout kin := by
        unfold stdWmanual
        rw [← Finset.sum_attach (Finset.Ico (1 + kout.1 * B) (1 + (kout.1 + 1) * B))
          (fun x => if h : x < 1 + K * B then m.weights kin ⟨x, h⟩ else 0)]
        exact Finset.sum_congr rfl fun x _ => by rw [dif_pos (slice_lt kout x.1 x.2)]

/-- Witness for C5 at a concrete model. -/
theorem stdW_eq_stdWmanual_witness : stdW stdEx 0 0 = stdWmanual stdEx 0 0 :=
  stdW_eq_stdWmanual Nat.one_pos Nat.one_pos stdEx 0 0

/-- C9: for every `DiscreteTimeStandardHawkesModel` (any `K >= 1`, `B >= 1`),
`check_stability()` always raises (the 2-d `K x (1 + K*B)` weights array is
summed over the nonexistent axis 2) and never returns a boolean, whatever the
unreachable remainder of the body would do. -/
theorem stdCheckStability_always_raises {K B : ℕ} (hK : 0 < K) (hB : 0 < B)
    (m : StandardModel K B α)
    (rest : NpSum2dResult K (1 + K * B) α → Except String Bool) :
    stdCheckStability m rest =
      Except.error "axis 2 is out of bounds for array of dimension 2" := rfl

/-- Witness for C9 at a concrete model. -/
theorem stdCheckStability_always_raises_witness :
    stdCheckStability stdEx (fun _ => Except.ok true) =
      Except.error "axis 2 is out of bounds for array of dimension 2" :=
  stdCheckStability_always_raises Nat.one_pos Nat.one_pos stdEx (fun _ => Except.ok true)

@[simp] theorem ok_bind {ε β γ : Type} (a : β) (f : β → Except ε γ) :
    (Except.ok a >>= f) = f a := rfl

@[simp] theorem error_bind {ε β γ : Type} (e : ε) (f : β → Except ε γ) :
    ((Except.error e : Except ε β) >>= f) = Except.error e := rfl

/-- On a nonempty 2-d array, `np.amin` succeeds and bounds below iff every
entry is bounded below. -/
theorem aminM_spec {a b : ℕ} (h : 0 < a ∧ 0 < b) (X : Matrix (Fin a) (Fin b) α) :
    ∃ v, npAminMat X = Except.ok v ∧ ∀ x : α, x ≤ v ↔ ∀ i j, x ≤ X i j := by
  refine ⟨_, dif_pos h, fun x => ?_⟩
  rw [Finset.le_inf'_iff]
  exact ⟨fun hv i j => hv (i, j) (Finset.mem_univ _), fun hv q _ => hv q.1 q.2⟩

/-- On a nonempty 2-d array, `np.amax` succeeds, with its standard bounds. -/
theorem amaxM_spec {a b : ℕ} (h : 0 < a ∧ 0 < b) (X : Matrix (Fin a) (Fin b) α) :
    ∃ v, npAmaxMat X = Except.ok v ∧ (∀ x : α, v < x ↔ ∀ i j, X i j < x) ∧
      (∀ x : α, v ≤ x ↔ ∀ i j, X i j ≤ x) := by
  refine ⟨_, dif_pos h, fun x => ?_, fun x => ?_⟩
  · rw [Finset.sup'_lt_iff]
    exact ⟨fun hv i j => hv (i, j) (Finset.mem_univ _), fun hv q _ => hv q.1 q.2⟩
  · rw [Finset.sup'_le_iff]
    exact ⟨fun hv i j => hv (i, j) (Finset.mem_univ _), fun hv q _ => hv q.1 q.2⟩

theorem aminV_spec {a : ℕ} (h : 0 < a) (x : Fin a → α) :
    ∃ v, npAminVec x = Except.ok v ∧ ∀ y : α, y ≤ v ↔ ∀ k, y ≤ x k := by
  refine ⟨_, dif_pos h, fun y => ?_⟩
  rw [Finset.le_inf'_iff]
  exact ⟨fun hv k => hv k (Finset.mem_univ _), fun hv k _ => hv k⟩

theorem amaxV_spec {a : ℕ} (h : 0 < a) (x : Fin a → α) :
    ∃ v, npAmaxVec x = Except.ok v ∧ ∀ y : α, v < y ↔ ∀ k, x k < y := by
  refine ⟨_, dif_pos h, fun y => ?_⟩
  rw [Finset.sup'_lt_iff]
  exact ⟨fun hv k => hv k (Finset.mem_univ _), fun hv k _ => hv k⟩

theorem set_parameters_of_ok {K B C : ℕ} (M : NetworkModel K B C α)
    (P : Params K B C α) (h : params_ok P) :
    set_parameters M P = Except.ok (store_params M P) := by
  obtain ⟨hK, hC, hW, hg, hl, hc0, hc1, hp0, hp1, hv, hm0, hm1⟩ := h
  obtain ⟨wv, hWok, hWiff⟩ := aminM_spec ⟨hK, hK⟩ P.W
  obtain ⟨lv, hlok, hliff⟩ := aminV_spec hK P.lambda0
  obtain ⟨cv, hcok, hciff⟩ := aminV_spec hK P.c
  obtain ⟨cw, hcok2, hciff2⟩ := amaxV_spec hK P.c
  obtain ⟨pv, hpok, hpiff⟩ := aminM_spec ⟨hC, hC⟩ P.p
  obtain ⟨pw, hpok2, hpiff2a, hpiff2b⟩ := amaxM_spec ⟨hC, hC⟩ P.p
  obtain ⟨vv, hvok, hviff⟩ := aminM_spec ⟨hC, hC⟩ P.v
  obtain ⟨mv, hmok, hmiff⟩ := aminV_spec hC P.m
  unfold set_parameters
  rw [hWok, hlok, hcok, hcok2, hpok, hpok2, hvok, hmok]
  simp only [ok_bind]
  rw [if_neg (by simp only [not_not]; exact (hWiff 0).mpr hW),
      if_neg (by simp only [not_not]; exact hg),
      if_neg (by simp only [not_not]; exact (hliff 0).mpr hl),
      if_neg (by simp only [not_not]; exact ⟨(hciff 0).mpr hc0, (hciff2 (C : α)).mpr hc1⟩),
      if_neg (by simp only [not_not]; exact ⟨(hpiff 0).mpr hp0, (hpiff2b 1).mpr hp1⟩),
      if_neg (by simp only [not_not]; exact (hviff 0).mpr hv),
      if_neg (by simp only [not_not]; exact ⟨(hmiff 0).mpr hm0, hm1⟩)]
  rfl

theorem ok_of_set_parameters {K B C : ℕ} (M : NetworkModel K B C α)
    (P : Params K B C α) (M' : NetworkModel K B C α)
    (h : set_parameters M P = Except.ok M') : params_ok P ∧ M' = store_params M P := by
  by_cases hK : 0 < K
  · by_cases hC : 0 < C
    · obtain ⟨wv, hWok, hWiff⟩ := aminM_spec ⟨hK, hK⟩ P.W
      obtain ⟨lv, hlok, hliff⟩ := aminV_spec hK P.lambda0
      obtain ⟨cv, hcok, hciff⟩ := aminV_spec hK P.c
      obtain ⟨cw, hcok2, hciff2⟩ := amaxV_spec hK P.c
      obtain ⟨pv, hpok, hpiff⟩ := aminM_spec ⟨hC, hC⟩ P.p
      obtain ⟨pw, hpok2, hpiff2a, hpiff2b⟩ := amaxM_spec ⟨hC, hC⟩ P.p
      obtain ⟨vv, hvok, hviff⟩ := aminM_spec ⟨hC, hC⟩ P.v
      obtain ⟨mv, hmok, hmiff⟩ := aminV_spec hC P.m
      unfold set_parameters at h
      rw [hWok, hlok, hcok, hcok2, hpok, hpok2, hvok, hmok] at h
      simp only [ok_bind] at h
      split_ifs at h with h1 h2 h3 h4 h5 h6 h7
      · refine ⟨⟨hK, hC, (hWiff 0).mp h1, h2, (hliff 0).mp h3,
          (hciff 0).mp h4.1, (hciff2 (C : α)).mp h4.2,
          (hpiff 0).mp h5.1, (hpiff2b 1).mp h5.2,
          (hviff 0).mp h6, (hmiff 0).mp h7.1, h7.2⟩, ?_⟩
        injection h with h'
        exact h'.symm
    · obtain ⟨wv, hWok, hWiff⟩ := aminM_spec ⟨hK, hK⟩ P.W
      obtain ⟨lv, hlok, hliff⟩ := aminV_spec hK P.lambda0
      obtain ⟨cv, hcok, hciff⟩ := aminV_spec hK P.c
      obtain ⟨cw, hcok2, hciff2⟩ := amaxV_spec hK P.c
      have hp_err : npAminMat P.p =
          Except.error "zero-size array to reduction operation minimum which has no identity" :=
        dif_neg (by omega)
      unfold set_parameters at h
      rw [hWok, hlok, hcok, hcok2, hp_err] at h
      simp only [ok_bind, error_bind] at h
      split_ifs at h
  · have hW_err : npAminMat P.W =
        Except.error "zero-size array to reduction operation minimum which has no identity" :=
      dif_neg (by omega)
    unfold set_parameters at h
    rw [hW_err] at h
    simp only [error_bind] at h
    exact Except.noConfusion h

theorem set_parameters_ok_iff {K B C : ℕ} (M : NetworkModel K B C α)
    (P : Params K B C α) :
    (∃ M', set_parameters M P = Except.ok M') ↔ params_ok P :=
  ⟨fun ⟨M', h⟩ => (ok_of_set_parameters M P M' h).1,
   fun h => ⟨_, set_parameters_of_ok M P h⟩⟩

/-- Counterexample to C6 as stated: `set_parameters` accepts a `1x1` model
whose `A` is the non-binary matrix `[[2]]` — no error is raised and the
non-binary adjacency is stored unchanged. -/
theorem set_parameters_accepts_nonbinary_A :
    (set_parameters netEx badParams).map (fun M => M.A 0 0) = Except.ok 2 ∧
    ¬ (badParams.A 0 0 = 0 ∨ badParams.A 0 0 = 1) := by
  constructor
  · rw [set_parameters_of_ok netEx badParams
      (by norm_num [params_ok, badParams, npAllclose])]
    rfl
  · norm_num [badParams]

/-- C6 (amended): `set_parameters(params)` raises a descriptive error exactly
when one of the checks it performs fails — `W`, `lambda0`, `v` entrywise
nonnegativity, `c` in `[0, C)`, `p` in `[0, 1]`, each impulse row of `g`
summing to 1 and `m` a simplex both up to `np.allclose` tolerance, and the
zero-size reductions raising when `K = 0` or `C = 0`; the entries of `A` are
never checked (only its shape is).  When no check fails it stores all eight
fields unchanged, with no coercion. -/
theorem set_parameters_spec {K B C : ℕ} (M : NetworkModel K B C α)
    (P : Params K B C α) :
    ((∃ e, set_parameters M P = Except.error e) ↔ ¬ params_ok P) ∧
    (params_ok P → set_parameters M P = Except.ok (store_params M P)) := by
  refine ⟨⟨?_, ?_⟩, set_parameters_of_ok M P⟩
  · rintro ⟨e, he⟩ hok
    rw [set_parameters_of_ok M P hok] at he
    exact Except.noConfusion he
  · intro hnot
    cases hse : set_parameters M P with
    | error e => exact ⟨e, rfl⟩
    | ok M' => exact absurd (ok_of_set_parameters M P M' hse).1 hnot

/-- Witness for C6 (amended) at a concrete model: storing the valid tuple of
`netEx` succeeds and stores the fields. -/
theorem set_parameters_spec_witness :
    set_parameters netEx (get_parameters netEx) =
      Except.ok (store_params netEx (get_parameters netEx)) :=
  (set_parameters_spec netEx (get_parameters netEx)).2
    (by norm_num [params_ok, get_parameters, netEx, npAllclose])

/-- C4: for every network Hawkes model `M1` with valid parameters and every
second model `M2` of the same shape holding the same stored datasets,
`M2.set_parameters(M1.get_parameters())` succeeds, and the resulting model
computes exactly the rates of `M1` on every stored dataset (both the
whole-matrix branch and the single-process branch of `compute_rate`). -/
theorem get_set_roundtrip_rate {K B C : ℕ} (M1 M2 : NetworkModel K B C α)
    (hdata : M2.data_list = M1.data_list)
    (hok : params_ok (get_parameters M1)) :
    ∃ M2', set_parameters M2 (get_parameters M1) = Except.ok M2' ∧
      M2'.data_list = M1.data_list ∧
      (∀ d ∈ M2'.data_list, compute_rate M2' d = compute_rate M1 d) ∧
      (∀ d ∈ M2'.data_list, ∀ proc, compute_rate_proc M2' d proc = compute_rate_proc M1 d proc) := by
  refine ⟨store_params M2 (get_parameters M1), set_parameters_of_ok M2 _ hok,
    hdata, fun d _ => rfl, fun d _ proc => rfl⟩

/-- Witness for C4 at a concrete pair of models. -/
theorem get_set_roundtrip_rate_witness :
    ∃ M2', set_parameters netEx (get_parameters netEx) = Except.ok M2' ∧
      M2'.data_list = netEx.data_list ∧
      (∀ d ∈ M2'.data_list, compute_rate M2' d = compute_rate netEx d) ∧
      (∀ d ∈ M2'.data_list, ∀ proc, compute_rate_proc M2' d proc = compute_rate_proc netEx d proc) :=
  get_set_roundtrip_rate netEx netEx rfl
    (by norm_num [params_ok, get_parameters, netEx, npAllclose])

/-- C7: for every network Hawkes model with valid parameters (`A` binary, `W`
nonnegative, every impulse row of `g` a probability simplex, `lambda0`
nonnegative) and every dataset whose feature tensor is entrywise nonnegative,
every entry of the rate returned by `compute_rate` is nonnegative, in both the
`proc=None` and the single-process branch. -/
theorem compute_rate_nonneg {K B C : ℕ} (M : NetworkModel K B C α)
    (hA : ∀ i j, M.A i j = 0 ∨ M.A i j = 1) (hW : ∀ i j, 0 ≤ M.W i j)
    (hg0 : ∀ i j b, 0 ≤ M.g i j b) (hg1 : ∀ i j, ∑ b, M.g i j b = 1)
    (hl : ∀ k, 0 ≤ M.lambda0 k) (d : Dataset K B α)
    (hF : ∀ t k b, 0 ≤ d.F t k b) :
    (∀ t k, 0 ≤ compute_rate M d t k) ∧
    (∀ proc t, 0 ≤ compute_rate_proc M d proc t) := by
  have hA0 : ∀ i j, 0 ≤ M.A i j := by
    intro i j
    rcases hA i j with h | h <;> rw [h] <;> norm_num
  have hterm : ∀ (t : Fin d.T) (k k2 : Fin K) (b : Fin B),
      0 ≤ d.F t k b * (M.A k k2 * M.W k k2 * M.g k k2 b) := fun t k k2 b =>
    mul_nonneg (hF t k b) (mul_nonneg (mul_nonneg (hA0 k k2) (hW k k2)) (hg0 k k2 b))
  constructor
  · intro t k2
    exact add_nonneg (hl k2) (Finset.sum_nonneg fun k _ =>
      Finset.sum_nonneg fun b _ => hterm t k k2 b)
  · intro proc t
    exact add_nonneg (hl proc) (Finset.sum_nonneg fun k _ =>
      Finset.sum_nonneg fun b _ => hterm t k proc b)

/-- Witness for C7 at a concrete model and dataset. -/
theorem compute_rate_nonneg_witness :
    (∀ t k, 0 ≤ compute_rate netEx dsEx t k) ∧
    (∀ proc t, 0 ≤ compute_rate_proc netEx dsEx proc t) :=
  compute_rate_nonneg netEx (by simp [netEx]) (by simp [netEx]) (by simp [netEx])
    (by simp [netEx]) (by simp [netEx]) dsEx (by simp [dsEx])

/-- C3 (what the code actually does at `T = 0`): with the default `keep=True`,
`generate(T=0)` raises — the generated count matrix is the empty `0 x K`
array, and the validation inside `add_data` evaluates `np.amin` of that
zero-size array, which raises a `ValueError` — while with `keep=False` the
same call returns the empty `0 x K` count and rate matrices without error and
leaves the model unchanged. -/
theorem generate_T0 {K B C : ℕ} (hK : 0 < K) (M : NetworkModel K B C α)
    (convolve : Matrix (Fin 0) (Fin K) ℤ → (Fin 0 → Fin K → Fin B → α))
    (basisArr : ℕ → Fin B → α) (L : ℕ) (poisson : ℕ → Fin K → α → ℕ) :
    generate M (T := 0) convolve basisArr L poisson true =
      Except.error "zero-size array to reduction operation minimum which has no identity" ∧
    ∃ S R, generate M (T := 0) convolve basisArr L poisson false =
      Except.ok (S, R, M) := by
  have hmin : ∀ X : Matrix (Fin 0) (Fin K) ℤ, npAminMatZ X =
      Except.error "zero-size array to reduction operation minimum which has no identity" :=
    fun X => dif_neg (by omega)
  constructor
  · simp only [generate, add_data, hmin, error_bind, if_true]
  · exact ⟨_, _, rfl⟩

/-- Witness for C3 at a concrete model. -/
theorem generate_T0_witness :
    generate netEx (T := 0) (fun _ t _ _ => Fin.elim0 t) (fun _ _ => 0) 1
        (fun _ _ _ => 0) true =
      Except.error "zero-size array to reduction operation minimum which has no identity" ∧
    ∃ S R, generate netEx (T := 0) (fun _ t _ _ => Fin.elim0 t) (fun _ _ => 0) 1
        (fun _ _ _ => 0) false = Except.ok (S, R, netEx) :=
  generate_T0 Nat.one_pos netEx (fun _ t _ _ => Fin.elim0 t) (fun _ _ => 0) 1
    (fun _ _ _ => 0)

/-- C8: one call to `resample_model` performs exactly one update of each
latent family, in the fixed order bias, impulse, weight, then one parent
update per registered dataset, then the network; every parent update occurs
after the weight update and before the network update (witnessed by the
factorization of the trace), and the new state records that the parents were
resampled from the just-updated bias, weight and impulse models and the
network from the just-updated weight model. -/
theorem resample_model_order {β ι ω ν π : Type} (I : GibbsInternals β ι ω ν π)
    (s : GibbsState β ι ω ν π) :
    (resample_model I s).2 =
      [GibbsEvent.bias, GibbsEvent.impulse, GibbsEvent.weight] ++
        (List.range s.parents.length).map GibbsEvent.parent ++ [GibbsEvent.network] ∧
    (resample_model I s).2.count GibbsEvent.bias = 1 ∧
    (resample_model I s).2.count GibbsEvent.impulse = 1 ∧
    (resample_model I s).2.count GibbsEvent.weight = 1 ∧
    (resample_model I s).2.count GibbsEvent.network = 1 ∧
    (∀ i, i < s.parents.length → (resample_model I s).2.count (GibbsEvent.parent i) = 1) ∧
    (∀ i, i < s.parents.length → ∃ l1 l2,
      (resample_model I s).2 = l1 ++ GibbsEvent.parent i :: l2 ∧
      GibbsEvent.weight ∈ l1 ∧ GibbsEvent.network ∈ l2) ∧
    (resample_model I s).1.parents =
      s.parents.map (I.parent_resample (resample_model I s).1.bias
        (resample_model I s).1.weight (resample_model I s).1.impulse) ∧
    (resample_model I s).1.bias = I.bias_resample s.parents s.bias ∧
    (resample_model I s).1.impulse = I.impulse_resample s.parents s.impulse ∧
    (resample_model I s).1.weight = I.weight_resample s.parents s.network s.weight ∧
    (resample_model I s).1.network =
      I.network_resample (resample_model I s).1.weight s.network := by
  set n := s.parents.length with hn
  have hmemb : ∀ (e : GibbsEvent), (∀ i : ℕ, e ≠ GibbsEvent.parent i) →
      e ∉ (List.range n).map GibbsEvent.parent := by
    intro e he hmem
    obtain ⟨i, _, hi⟩ := List.mem_map.mp hmem
    exact he i hi.symm
  have hinj : Function.Injective GibbsEvent.parent := fun a b h => by
    injection h
  refine ⟨rfl, ?_, ?_, ?_, ?_, ?_, ?_, rfl, rfl, rfl, rfl, rfl⟩
  · simp [resample_model, List.count_append,
      List.count_eq_zero.mpr (hmemb GibbsEvent.bias (by intro i h; cases h)), List.count_cons]
  · simp [resample_model, List.count_append,
      List.count_eq_zero.mpr (hmemb GibbsEvent.impulse (by intro i h; cases h)), List.count_cons]
  · simp [resample_model, List.count_append,
      List.count_eq_zero.mpr (hmemb GibbsEvent.weight (by intro i h; cases h)), List.count_cons]
  · simp [resample_model, List.count_append,
      List.count_eq_zero.mpr (hmemb GibbsEvent.network (by intro i h; cases h)), List.count_cons]
  · intro i hi
    have hcnt : ((List.range n).map GibbsEvent.parent).count (GibbsEvent.parent i) = 1 := by
      rw [List.count_map_of_injective _ _ hinj]
      exact List.count_eq_one_of_mem (List.nodup_range n) (List.mem_range.mpr hi)
    simp [resample_model, List.count_append, hcnt, List.count_cons]
  · intro i hi
    have hsplit : List.range n = List.range i ++ i :: ((List.range (n - i - 1)).map (i + 1 + ·)) := by
      have h1 : n = i + 1 + (n - i - 1) := by omega
      calc List.range n = List.range (i + 1 + (n - i - 1)) := by rw [← h1]
        _ = List.range (i + 1) ++ (List.range (n - i - 1)).map (i + 1 + ·) := List.range_add _ _
        _ = (List.range i ++ [i]) ++ (List.range (n - i - 1)).map (i + 1 + ·) := by
            rw [List.range_succ]
        _ = List.range i ++ i :: ((List.range (n - i - 1)).map (i + 1 + ·)) := by
            rw [List.append_assoc]; rfl
    refine ⟨[GibbsEvent.bias, GibbsEvent.impulse, GibbsEvent.weight] ++
        (List.range i).map GibbsEvent.parent,
      ((List.range (n - i - 1)).map (i + 1 + ·)).map GibbsEvent.parent ++
        [GibbsEvent.network], ?_, by simp, by simp⟩
    show ([GibbsEvent.bias, GibbsEvent.impulse, GibbsEvent.weight] ++
        (List.range n).map GibbsEvent.parent ++ [GibbsEvent.network]) = _
    rw [hsplit]
    simp

/-- Witness for C8 at a concrete state with one registered dataset. -/
theorem resample_model_order_witness :
    (resample_model gibbsIEx gibbsSEx).2 =
      [GibbsEvent.bias, GibbsEvent.impulse, GibbsEvent.weight] ++
        (List.range gibbsSEx.parents.length).map GibbsEvent.parent ++ [GibbsEvent.network] ∧
    (resample_model gibbsIEx gibbsSEx).2.count GibbsEvent.bias = 1 ∧
    (resample_model gibbsIEx gibbsSEx).2.count GibbsEvent.impulse = 1 ∧
    (resample_model gibbsIEx gibbsSEx).2.count GibbsEvent.weight = 1 ∧
    (resample_model gibbsIEx gibbsSEx).2.count GibbsEvent.network = 1 ∧
    (∀ i, i < gibbsSEx.parents.length →
      (resample_model gibbsIEx gibbsSEx).2.count (GibbsEvent.parent i) = 1) ∧
    (∀ i, i < gibbsSEx.parents.length → ∃ l1 l2,
      (resample_model gibbsIEx gibbsSEx).2 = l1 ++ GibbsEvent.parent i :: l2 ∧
      GibbsEvent.weight ∈ l1 ∧ GibbsEvent.network ∈ l2) ∧
    (resample_model gibbsIEx gibbsSEx).1.parents =
      gibbsSEx.parents.map (gibbsIEx.parent_resample (resample_model gibbsIEx gibbsSEx).1.bias
        (resample_model gibbsIEx gibbsSEx).1.weight (resample_model gibbsIEx gibbsSEx).1.impulse) ∧
    (resample_model gibbsIEx gibbsSEx).1.bias = gibbsIEx.bias_resample gibbsSEx.parents gibbsSEx.bias ∧
    (resample_model gibbsIEx gibbsSEx).1.impulse = gibbsIEx.impulse_resample gibbsSEx.parents gibbsSEx.impulse ∧
    (resample_model gibbsIEx gibbsSEx).1.weight =
      gibbsIEx.weight_resample gibbsSEx.parents gibbsSEx.network gibbsSEx.weight ∧
    (resample_model gibbsIEx gibbsSEx).1.network =
      gibbsIEx.network_resample (resample_model gibbsIEx gibbsSEx).1.weight gibbsSEx.network :=
  resample_model_order gibbsIEx gibbsSEx

/-- One sweep never decreases the VLB, and the value it returns is the VLB of
the state it leaves behind. -/
theorem mf_step_vlb {σ : Type} (I : MeanFieldInternals σ) (s : σ) :
    I.vlb s ≤ (meanfield_coordinate_descent_step I s).1 ∧
    (meanfield_coordinate_descent_step I s).1 =
      I.vlb (meanfield_coordinate_descent_step I s).2 := by
  refine ⟨?_, rfl⟩
  calc I.vlb s ≤ I.vlb (I.update_parents s) := I.ascent_parents s
    _ ≤ I.vlb (I.update_bias (I.update_parents s)) := I.ascent_bias _
    _ ≤ I.vlb (I.update_impulse (I.update_bias (I.update_parents s))) := I.ascent_impulse _
    _ ≤ I.vlb (I.update_weight (I.update_impulse (I.update_bias (I.update_parents s)))) :=
        I.ascent_weight _
    _ ≤ I.vlb (I.update_network (I.update_weight (I.update_impulse
          (I.update_bias (I.update_parents s))))) := I.ascent_network _

/-- C2: on a fixed registered dataset, the sequence of values returned by
consecutive calls to `meanfield_coordinate_descent_step` is non-decreasing:
the value returned by call `n+1` is at least the value returned by call `n`
(modelled from the spec for the factor updates, which are exact
coordinate-ascent steps of the shared VLB). -/
theorem mf_step_values_monotone {σ : Type} (I : MeanFieldInternals σ) (s : σ) :
    ∀ n : ℕ, (meanfield_coordinate_descent_step I (mf_iterate I s n)).1 ≤
      (meanfield_coordinate_descent_step I (mf_iterate I s (n + 1))).1 := by
  intro n
  have h1 := (mf_step_vlb I (mf_iterate I s n)).2
  have h2 := (mf_step_vlb I (mf_iterate I s (n + 1))).1
  rw [h1]
  exact h2

/-- Witness for C2 at a concrete model and first step. -/
theorem mf_step_values_monotone_witness :
    (meanfield_coordinate_descent_step mfIEx (mf_iterate mfIEx () 0)).1 ≤
      (meanfield_coordinate_descent_step mfIEx (mf_iterate mfIEx () 1)).1 :=
  mf_step_values_monotone mfIEx () 0

/-- C10: `compute_rate`, `log_likelihood` and `heldout_log_likelihood` are
read-only — each leaves every piece of model state (`A`, `W`, `g`,
`lambda0`, the network fields and the dataset list) unchanged — and the rate
is recomputed from the current parameters and features on every call: two
models agreeing on `A`, `W`, `g` and `lambda0` produce identical rates on any
dataset, whatever their other state (and the model state carries no rate
cache to read instead). -/
theorem likelihoods_read_only {K B C : ℕ} :
    (∀ (M : NetworkModel K B C ℝ) (d : Dataset K B ℝ), (compute_rate_st M d).2 = M) ∧
    (∀ (T : ℕ) (M : NetworkModel K B C ℝ)
      (convolve : Matrix (Fin T) (Fin K) ℤ → (Fin T → Fin K → Fin B → ℝ))
      (S : Matrix (Fin T) (Fin K) ℤ), (heldout_log_likelihood_st M convolve S).2 = M) ∧
    (∀ M : NetworkModel K B C ℝ, (log_likelihood_st M).2 = M) ∧
    (∀ M M' : NetworkModel K B C ℝ, M.A = M'.A → M.W = M'.W → M.g = M'.g →
      M.lambda0 = M'.lambda0 →
      ∀ d : Dataset K B ℝ, (compute_rate_st M d).1 = (compute_rate_st M' d).1) := by
  refine ⟨fun M d => rfl, fun T M convolve S => rfl, fun M => rfl, ?_⟩
  intro M M' hA hW hg hl d
  show compute_rate M d = compute_rate M' d
  unfold compute_rate rate_formula
  rw [hA, hW, hg, hl]

/-- Witness for C10 at a concrete model, dataset and heldout matrix. -/
theorem likelihoods_read_only_witness :
    (compute_rate_st netExR dsExR).2 = netExR ∧
    (heldout_log_likelihood_st netExR convExR sExR).2 = netExR ∧
    (log_likelihood_st netExR).2 = netExR ∧
    (compute_rate_st netExR dsExR).1 = (compute_rate_st netExR dsExR).1 :=
  ⟨(likelihoods_read_only).1 netExR dsExR,
   (likelihoods_read_only).2.1 1 netExR convExR sExR,
   (likelihoods_read_only).2.2.1 netExR,
   (likelihoods_read_only).2.2.2 netExR netExR rfl rfl rfl rfl dsExR⟩


/-! ### Claim C1: stability check versus spectral radius -/

open Polynomial Filter

theorem eval_charpoly {K : ℕ} (A : Matrix (Fin K) (Fin K) ℂ) (y : ℂ) :
    A.charpoly.eval y = (y • (1 : Matrix (Fin K) (Fin K) ℂ) - A).det := by
  unfold Matrix.charpoly
  rw [← Polynomial.coe_evalRingHom, RingHom.map_det]
  congr 1
  ext i j
  by_cases h : i = j
  · subst h
    simp [Matrix.charmatrix_apply_eq, Matrix.smul_apply, Matrix.one_apply]
  · simp [Matrix.charmatrix_apply_ne _ _ _ h, Matrix.smul_apply, Matrix.one_apply, h]

theorem mprod_map_mul_const {α R : Type*} [CommRing R] (s : Multiset α) (c : R) (f : α → R) :
    (s.map (fun a => c * f a)).prod = c ^ Multiset.card s * (s.map f).prod := by
  induction s using Multiset.induction_on with
  | empty => simp
  | cons a s ih =>
      simp only [Multiset.map_cons, Multiset.prod_cons, ih, Multiset.card_cons, pow_succ]
      ring

theorem mprod_map_neg {α R : Type*} [CommRing R] (s : Multiset α) (f : α → R) :
    (s.map (fun a => -(f a))).prod = (-1) ^ Multiset.card s * (s.map f).prod := by
  have h : (fun a => -(f a)) = fun a => (-1 : R) * f a := by funext a; ring
  rw [h, mprod_map_mul_const]

theorem mprod_eq_toList_prod {α M : Type*} [CommMonoid M] (s : Multiset α) (f : α → M) :
    (s.map f).prod = (s.toList.map f).prod := by
  conv_lhs => rw [← Multiset.coe_toList s]
  rw [Multiset.map_coe, Multiset.prod_coe]

theorem lprod_map_mul_const {α R : Type*} [CommRing R] (l : List α) (c : R) (f : α → R) :
    (l.map (fun a => c * f a)).prod = c ^ l.length * (l.map f).prod := by
  induction l with
  | nil => simp
  | cons a l ih =>
      simp only [List.map_cons, List.prod_cons, ih, List.length_cons, pow_succ]
      ring

theorem eval_multiset_prod_X_sub_C (s : Multiset ℂ) (z : ℂ) :
    ((s.map (fun a => X - C a)).prod).eval z = (s.map (fun a => z - a)).prod := by
  rw [← Polynomial.coe_evalRingHom, map_multiset_prod, Multiset.map_map]
  congr 1
  ext a
  simp

theorem charpoly_pow_roots {K : ℕ} (N : Matrix (Fin K) (Fin K) ℂ) (p : ℕ) (hp : p ≠ 0) :
    (N ^ p).charpoly.roots = N.charpoly.roots.map (· ^ p) := by
  set R := N.charpoly.roots with hRdef
  have hNm : N.charpoly.Monic := Matrix.charpoly_monic N
  have hNfact : N.charpoly = (R.map (fun z => X - C z)).prod :=
    Polynomial.eq_prod_roots_of_monic_of_splits_id hNm (IsAlgClosed.splits_codomain _)
  have hRcard : Multiset.card R = K := by
    have h := (Polynomial.splits_iff_card_roots (p := N.charpoly)).mp
      (IsAlgClosed.splits_codomain _)
    rw [hRdef, h, Matrix.charpoly_natDegree_eq_dim, Fintype.card_fin]
  have hQm : ((R.map (fun z => X - C (z ^ p))).prod).Monic := by
    apply Polynomial.monic_multiset_prod_of_monic
    intro z _
    exact Polynomial.monic_X_sub_C _
  have hQeval : ∀ y : ℂ, ((R.map (fun z => X - C (z ^ p))).prod).eval y =
      (R.map (fun l => y - l ^ p)).prod := by
    intro y
    have h0 : (R.map (fun z => X - C (z ^ p))) =
        ((R.map (· ^ p)).map (fun a => X - C a)) := by
      rw [Multiset.map_map]; rfl
    rw [h0, eval_multiset_prod_X_sub_C, Multiset.map_map]; rfl
  have heval : ∀ y : ℂ, (N ^ p).charpoly.eval y =
      (R.map (fun l => y - l ^ p)).prod := by
    intro y
    set q : ℂ[X] := X ^ p - C y with hqdef
    have hqm : q.Monic := monic_X_pow_sub_C y hp
    have hqfact : q = (q.roots.map (fun z => X - C z)).prod :=
      Polynomial.eq_prod_roots_of_monic_of_splits_id hqm (IsAlgClosed.splits_codomain _)
    have hqcard : Multiset.card q.roots = p := by
      have h := (Polynomial.splits_iff_card_roots (p := q)).mp (IsAlgClosed.splits_codomain _)
      rw [h, hqdef, natDegree_X_pow_sub_C]
    have hqeval : ∀ z : ℂ, q.eval z = z ^ p - y := fun z => by simp [hqdef]
    -- left side: determinant computation
    have hstep1 : y • (1 : Matrix (Fin K) (Fin K) ℂ) - N ^ p = -(N ^ p - y • 1) :=
      (neg_sub _ _).symm
    have hstep2 : N ^ p - y • (1 : Matrix (Fin K) (Fin K) ℂ) = Polynomial.aeval N q := by
      simp [hqdef, Algebra.algebraMap_eq_smul_one]
    have hstep3 : Polynomial.aeval N q =
        (q.roots.toList.map (fun z => N - z • 1)).prod := by
      conv_lhs => rw [hqfact, mprod_eq_toList_prod]
      rw [map_list_prod, List.map_map]
      congr 1
      ext z
      simp [Algebra.algebraMap_eq_smul_one]
    have hdetfac : (Polynomial.aeval N q).det =
        (q.roots.toList.map (fun z => (N - z • 1).det)).prod := by
      rw [hstep3]
      have h := map_list_prod (Matrix.detMonoidHom) (q.roots.toList.map (fun z => N - z • 1))
      simp only [Matrix.coe_detMonoidHom] at h
      rw [h, List.map_map]
      rfl
    have hdetfactor : ∀ z : ℂ, (N - z • (1 : Matrix (Fin K) (Fin K) ℂ)).det =
        (-1) ^ K * (R.map (fun l => z - l)).prod := by
      intro z
      rw [← neg_sub (z • (1 : Matrix (Fin K) (Fin K) ℂ)) N, Matrix.det_neg, Fintype.card_fin,
        ← eval_charpoly]
      conv_lhs => rw [hNfact]
      rw [eval_multiset_prod_X_sub_C]
    calc (N ^ p).charpoly.eval y
        = (y • (1 : Matrix (Fin K) (Fin K) ℂ) - N ^ p).det := eval_charpoly _ y
      _ = (-1) ^ K * (Polynomial.aeval N q).det := by
          rw [hstep1, Matrix.det_neg, Fintype.card_fin, hstep2]
      _ = (-1) ^ K * (q.roots.toList.map (fun z => (N - z • 1).det)).prod := by rw [hdetfac]
      _ = (-1) ^ K * (q.roots.toList.map
            (fun z => (-1) ^ K * (R.map (fun l => z - l)).prod)).prod := by
          have hfun : (fun z : ℂ => (N - z • (1 : Matrix (Fin K) (Fin K) ℂ)).det) =
              fun z => (-1) ^ K * (R.map (fun l => z - l)).prod := funext hdetfactor
          rw [hfun]
      _ = (-1) ^ K * (((-1) ^ K) ^ p *
            (q.roots.toList.map (fun z => (R.map (fun l => z - l)).prod)).prod) := by
          rw [lprod_map_mul_const, Multiset.length_toList, hqcard]
      _ = (-1) ^ K * (((-1) ^ K) ^ p *
            (q.roots.map (fun z => (R.map (fun l => z - l)).prod)).prod) := by
          rw [mprod_eq_toList_prod]
      _ = (-1) ^ K * (((-1) ^ K) ^ p *
            (R.map (fun l => (q.roots.map (fun z => z - l)).prod)).prod) := by
          rw [Multiset.prod_map_prod_map]
      _ = (-1) ^ K * (((-1) ^ K) ^ p *
            (R.map (fun l => (-1) ^ p * (l ^ p - y))).prod) := by
          have hinner : ∀ l : ℂ, (q.roots.map (fun z => z - l)).prod =
              (-1) ^ p * (l ^ p - y) := by
            intro l
            have h1 : (fun z : ℂ => z - l) = fun z => -(l - z) := by funext z; ring
            rw [h1, mprod_map_neg, hqcard]
            congr 1
            have h2 := hqeval l
            conv_rhs => rw [← h2]
            conv_rhs => rw [hqfact, eval_multiset_prod_X_sub_C]
          have hfun : (fun l : ℂ => (q.roots.map (fun z => z - l)).prod) =
              fun l => (-1) ^ p * (l ^ p - y) := funext hinner
          rw [hfun]
      _ = (R.map (fun l => y - l ^ p)).prod := by
          rw [mprod_map_mul_const, hRcard]
          have h1 : (R.map (fun l => l ^ p - y)).prod =
              (-1 : ℂ) ^ K * (R.map (fun l => y - l ^ p)).prod := by
            have hfun : (fun l : ℂ => l ^ p - y) = fun l => -(y - l ^ p) := by
              funext l; ring
            rw [hfun, mprod_map_neg, hRcard]
          rw [h1, ← mul_assoc, ← mul_assoc, ← mul_assoc]
          have hsign : (-1 : ℂ) ^ K * ((-1 : ℂ) ^ K) ^ p * ((-1 : ℂ) ^ p) ^ K *
              (-1 : ℂ) ^ K = 1 := by
            rw [← pow_mul, ← pow_mul, ← pow_add, ← pow_add, ← pow_add]
            have he : K + K * p + p * K + K = 2 * (K + K * p) := by ring
            rw [he, pow_mul, neg_one_sq, one_pow]
          rw [hsign, one_mul]
  have hpoly : (N ^ p).charpoly = (R.map (fun z => X - C (z ^ p))).prod :=
    Polynomial.funext (fun y => (heval y).trans (hQeval y).symm)
  rw [hpoly]
  have h0 : (R.map (fun z => X - C (z ^ p))) =
      ((R.map (· ^ p)).map (fun a => X - C a)) := by
    rw [Multiset.map_map]; rfl
  rw [h0, Polynomial.roots_multiset_prod_X_sub_C]

theorem trace_pow_eq_sum_pow_roots {K : ℕ} (N : Matrix (Fin K) (Fin K) ℂ) (n : ℕ) :
    (N ^ n).trace = (N.charpoly.roots.map (· ^ n)).sum := by
  cases n with
  | zero =>
      have hRcard : Multiset.card N.charpoly.roots = K := by
        have h := (Polynomial.splits_iff_card_roots (p := N.charpoly)).mp
          (IsAlgClosed.splits_codomain _)
        rw [h, Matrix.charpoly_natDegree_eq_dim, Fintype.card_fin]
      simp only [pow_zero, Matrix.trace_one, Fintype.card_fin]
      rw [Multiset.map_const', Multiset.sum_replicate, hRcard]
      simp
  | succ m =>
      rw [Matrix.trace_eq_sum_roots_charpoly, charpoly_pow_roots _ _ (Nat.succ_ne_zero m)]

theorem pow_entry_nonneg {K : ℕ} (M : Matrix (Fin K) (Fin K) ℝ) (hM : ∀ i j, 0 ≤ M i j) (n : ℕ) :
    ∀ i j, 0 ≤ (M ^ n) i j := by
  induction n with
  | zero =>
      intro i j
      rw [pow_zero]
      by_cases h : i = j
      · simp [Matrix.one_apply, h]
      · simp [Matrix.one_apply, h]
  | succ m ih =>
      intro i j
      rw [pow_succ, Matrix.mul_apply]
      exact Finset.sum_nonneg fun k _ => mul_nonneg (ih i k) (hM k j)

theorem map_pow_trace {K : ℕ} (M : Matrix (Fin K) (Fin K) ℝ) (n : ℕ) :
    ((M.map (fun x : ℝ => (x : ℂ))) ^ n).trace = (((M ^ n).trace : ℝ) : ℂ) := by
  have h1 : (M.map (fun x : ℝ => (x : ℂ))) ^ n = (M ^ n).map (fun x : ℝ => (x : ℂ)) := by
    have h := map_pow ((Complex.ofRealHom : ℝ →+* ℂ).mapMatrix) M n
    simpa [RingHom.mapMatrix_apply] using h.symm
  rw [h1]
  simp [Matrix.trace, Matrix.diag, Matrix.map_apply]

theorem msum_swap {α M : Type*} [AddCommMonoid M] (s : Multiset α) (N : ℕ) (f : ℕ → α → M) :
    ∑ n ∈ Finset.range N, (s.map (f n)).sum =
      (s.map (fun z => ∑ n ∈ Finset.range N, f n z)).sum := by
  induction s using Multiset.induction_on with
  | empty => simp
  | cons a s ih => simp [Finset.sum_add_distrib, ih]

theorem msum_re {α : Type*} (s : Multiset α) (f : α → ℂ) :
    ((s.map f).sum).re = (s.map (fun x => (f x).re)).sum := by
  induction s using Multiset.induction_on with
  | empty => simp
  | cons a s ih => simp [ih]

theorem msum_sub {α : Type*} (s : Multiset α) (f g : α → ℝ) :
    (s.map (fun x => f x - g x)).sum = (s.map f).sum - (s.map g).sum := by
  induction s using Multiset.induction_on with
  | empty => simp
  | cons a s ih => simp [ih]; ring

theorem msum_tendsto_zero (s : Multiset ℂ) (f : ℕ → ℂ → ℂ)
    (h : ∀ z ∈ s, Filter.Tendsto (fun n => f n z) Filter.atTop (nhds 0)) :
    Filter.Tendsto (fun n => (s.map (f n)).sum) Filter.atTop (nhds 0) := by
  induction s using Multiset.induction_on with
  | empty => simpa using tendsto_const_nhds
  | cons a s ih =>
      have ha := h a (Multiset.mem_cons_self a s)
      have hs := ih (fun z hz => h z (Multiset.mem_cons_of_mem hz))
      have hadd := ha.add hs
      simp only [add_zero] at hadd
      simp only [Multiset.map_cons, Multiset.sum_cons]
      exact hadd

theorem unit_powsum_not_tendsto_zero (t : Multiset ℂ) (ht : t ≠ 0)
    (hu : ∀ μ ∈ t, Complex.abs μ = 1) :
    ¬ Filter.Tendsto (fun n => (t.map (fun μ => μ ^ n)).sum) Filter.atTop (nhds 0) := by
  classical
  intro hq
  set m : ℝ := (Multiset.card t : ℝ) with hm
  have hm1 : (1 : ℝ) ≤ m := by
    have h := Multiset.card_pos.mpr ht
    rw [hm]
    exact_mod_cast h
  -- conjugation and product expansion of |q n|^2
  have hconj : ∀ n : ℕ, (starRingEnd ℂ) ((t.map (fun μ => μ ^ n)).sum) =
      (t.map (fun ν => ((starRingEnd ℂ) ν) ^ n)).sum := by
    intro n
    rw [map_multiset_sum, Multiset.map_map]
    apply congrArg Multiset.sum
    apply Multiset.map_congr rfl
    intro ν _
    simp [map_pow]
  have hmul : ∀ n : ℕ, ((Complex.normSq ((t.map (fun μ => μ ^ n)).sum) : ℝ) : ℂ) =
      (t.map (fun μ => (t.map (fun ν => (μ * (starRingEnd ℂ) ν) ^ n)).sum)).sum := by
    intro n
    rw [← Complex.mul_conj, hconj n, ← Multiset.sum_map_mul_right]
    apply congrArg Multiset.sum
    apply Multiset.map_congr rfl
    intro μ _
    rw [← Multiset.sum_map_mul_left]
    apply congrArg Multiset.sum
    apply Multiset.map_congr rfl
    intro ν _
    rw [mul_pow]
  -- partial sums of |q n|^2 as a double geometric sum
  have hAeq : ∀ N : ℕ,
      ((∑ n ∈ Finset.range N, Complex.normSq ((t.map (fun μ => μ ^ n)).sum) : ℝ) : ℂ) =
      (t.map (fun μ => (t.map (fun ν =>
        ∑ n ∈ Finset.range N, (μ * (starRingEnd ℂ) ν) ^ n)).sum)).sum := by
    intro N
    push_cast
    calc ∑ n ∈ Finset.range N, ((Complex.normSq ((t.map (fun μ => μ ^ n)).sum) : ℝ) : ℂ)
        = ∑ n ∈ Finset.range N,
            (t.map (fun μ => (t.map (fun ν => (μ * (starRingEnd ℂ) ν) ^ n)).sum)).sum :=
          Finset.sum_congr rfl (fun n _ => hmul n)
      _ = (t.map (fun μ => ∑ n ∈ Finset.range N,
            (t.map (fun ν => (μ * (starRingEnd ℂ) ν) ^ n)).sum)).sum := msum_swap t N _
      _ = (t.map (fun μ => (t.map (fun ν =>
            ∑ n ∈ Finset.range N, (μ * (starRingEnd ℂ) ν) ^ n)).sum)).sum := by
          congr 1
          apply Multiset.map_congr rfl
          intro μ _
          exact msum_swap t N _
  -- unit moduli of the pair products
  have hunit_eta : ∀ μ ∈ t, ∀ ν ∈ t, Complex.abs (μ * (starRingEnd ℂ) ν) = 1 := by
    intro μ hμ ν hν
    rw [map_mul, Complex.abs_conj, hu μ hμ, hu ν hν, one_mul]
  have hself : ∀ μ ∈ t, μ * (starRingEnd ℂ) μ = 1 := by
    intro μ hμ
    rw [Complex.mul_conj]
    have h1 : Complex.normSq μ = 1 := by
      rw [← Complex.sq_abs, hu μ hμ]
      norm_num
    rw [h1]
    norm_num
  -- constant controlling the off-diagonal contributions
  set C0 : ℝ := (t.map (fun μ => (t.map (fun ν =>
      if μ * (starRingEnd ℂ) ν = 1 then 0
      else 2 / Complex.abs (μ * (starRingEnd ℂ) ν - 1))).sum)).sum with hC0
  -- pointwise lower bound on the real part of each geometric sum
  have hgeo_re : ∀ N : ℕ, ∀ μ ∈ t, ∀ ν ∈ t,
      (if μ * (starRingEnd ℂ) ν = 1 then (N : ℝ)
        else -(2 / Complex.abs (μ * (starRingEnd ℂ) ν - 1))) ≤
      (∑ n ∈ Finset.range N, (μ * (starRingEnd ℂ) ν) ^ n).re := by
    intro N μ hμ ν hν
    by_cases hη : μ * (starRingEnd ℂ) ν = 1
    · rw [if_pos hη, hη]
      simp
    · rw [if_neg hη]
      have hb : 0 < Complex.abs (μ * (starRingEnd ℂ) ν - 1) := by
        rw [AbsoluteValue.pos_iff]
        exact sub_ne_zero.mpr hη
      have habs : Complex.abs (∑ n ∈ Finset.range N, (μ * (starRingEnd ℂ) ν) ^ n) ≤
          2 / Complex.abs (μ * (starRingEnd ℂ) ν - 1) := by
        rw [geom_sum_eq hη, map_div₀]
        rw [div_le_div_iff_of_pos_right hb]
        calc Complex.abs ((μ * (starRingEnd ℂ) ν) ^ N - 1)
            ≤ Complex.abs ((μ * (starRingEnd ℂ) ν) ^ N) + Complex.abs 1 := by
              have h := norm_sub_le ((μ * (starRingEnd ℂ) ν) ^ N) (1 : ℂ)
              simpa [Complex.norm_eq_abs] using h
          _ ≤ 2 := by
              rw [map_pow, hunit_eta μ hμ ν hν, one_pow, map_one]
              norm_num
      have hre := Complex.abs_re_le_abs (∑ n ∈ Finset.range N, (μ * (starRingEnd ℂ) ν) ^ n)
      have hre2 := neg_abs_le ((∑ n ∈ Finset.range N, (μ * (starRingEnd ℂ) ν) ^ n).re)
      linarith
  -- global lower bound
  have hlow : ∀ N : ℕ, m * N - C0 ≤
      ∑ n ∈ Finset.range N, Complex.normSq ((t.map (fun μ => μ ^ n)).sum) := by
    intro N
    have hre_eq : (∑ n ∈ Finset.range N, Complex.normSq ((t.map (fun μ => μ ^ n)).sum) : ℝ) =
        ((t.map (fun μ => (t.map (fun ν =>
          ∑ n ∈ Finset.range N, (μ * (starRingEnd ℂ) ν) ^ n)).sum)).sum).re := by
      rw [← hAeq N, Complex.ofReal_re]
    rw [hre_eq, msum_re]
    have hinner_re : ∀ μ ∈ t,
        ((t.map (fun ν => ∑ n ∈ Finset.range N, (μ * (starRingEnd ℂ) ν) ^ n)).sum).re =
        (t.map (fun ν => (∑ n ∈ Finset.range N, (μ * (starRingEnd ℂ) ν) ^ n).re)).sum :=
      fun μ _ => msum_re t _
    rw [Multiset.map_congr rfl hinner_re]
    -- inner bound for each source μ
    have hinner : ∀ μ ∈ t, (N : ℝ) - (t.map (fun ν =>
        if μ * (starRingEnd ℂ) ν = 1 then 0
        else 2 / Complex.abs (μ * (starRingEnd ℂ) ν - 1))).sum ≤
        (t.map (fun ν => (∑ n ∈ Finset.range N, (μ * (starRingEnd ℂ) ν) ^ n).re)).sum := by
      intro μ hμ
      have hle : (t.map (fun ν => if μ * (starRingEnd ℂ) ν = 1 then (N : ℝ)
          else -(2 / Complex.abs (μ * (starRingEnd ℂ) ν - 1)))).sum ≤
          (t.map (fun ν => (∑ n ∈ Finset.range N, (μ * (starRingEnd ℂ) ν) ^ n).re)).sum :=
        Multiset.sum_map_le_sum_map _ _ (fun ν hν => hgeo_re N μ hμ ν hν)
      refine le_trans ?_ hle
      -- split t into diagonal-like and off-diagonal parts
      have hsplit := Multiset.filter_add_not (fun ν => μ * (starRingEnd ℂ) ν = 1) t
      have hcard1 : (1 : ℝ) ≤ (Multiset.card
          (t.filter (fun ν => μ * (starRingEnd ℂ) ν = 1)) : ℝ) := by
        have hmem : μ ∈ t.filter (fun ν => μ * (starRingEnd ℂ) ν = 1) :=
          Multiset.mem_filter.mpr ⟨hμ, hself μ hμ⟩
        have hne : t.filter (fun ν => μ * (starRingEnd ℂ) ν = 1) ≠ 0 := by
          intro h0
          rw [h0] at hmem
          exact Multiset.not_mem_zero μ hmem
        have hpos := Multiset.card_pos.mpr hne
        exact_mod_cast hpos
      -- compute both multiset sums through the split
      have hsum_low : (t.map (fun ν => if μ * (starRingEnd ℂ) ν = 1 then (N : ℝ)
          else -(2 / Complex.abs (μ * (starRingEnd ℂ) ν - 1)))).sum =
          (Multiset.card (t.filter (fun ν => μ * (starRingEnd ℂ) ν = 1)) : ℝ) * N -
          ((t.filter (fun ν => ¬ μ * (starRingEnd ℂ) ν = 1)).map
            (fun ν => 2 / Complex.abs (μ * (starRingEnd ℂ) ν - 1))).sum := by
        conv_lhs => rw [← hsplit]
        rw [Multiset.map_add, Multiset.sum_add]
        have h1 : ((t.filter (fun ν => μ * (starRingEnd ℂ) ν = 1)).map
            (fun ν => if μ * (starRingEnd ℂ) ν = 1 then (N : ℝ)
              else -(2 / Complex.abs (μ * (starRingEnd ℂ) ν - 1)))).sum =
            (Multiset.card (t.filter (fun ν => μ * (starRingEnd ℂ) ν = 1)) : ℝ) * N := by
          have hmapeq : (t.filter (fun ν => μ * (starRingEnd ℂ) ν = 1)).map
              (fun ν => if μ * (starRingEnd ℂ) ν = 1 then (N : ℝ)
                else -(2 / Complex.abs (μ * (starRingEnd ℂ) ν - 1))) =
              (t.filter (fun ν => μ * (starRingEnd ℂ) ν = 1)).map (fun _ => (N : ℝ)) :=
            Multiset.map_congr rfl (fun ν hν => if_pos (Multiset.of_mem_filter hν))
          rw [hmapeq, Multiset.map_const', Multiset.sum_replicate, nsmul_eq_mul]
        have h2 : ((t.filter (fun ν => ¬ μ * (starRingEnd ℂ) ν = 1)).map
            (fun ν => if μ * (starRingEnd ℂ) ν = 1 then (N : ℝ)
              else -(2 / Complex.abs (μ * (starRingEnd ℂ) ν - 1)))).sum =
            -(((t.filter (fun ν => ¬ μ * (starRingEnd ℂ) ν = 1)).map
              (fun ν => 2 / Complex.abs (μ * (starRingEnd ℂ) ν - 1))).sum) := by
          have hmapeq : (t.filter (fun ν => ¬ μ * (starRingEnd ℂ) ν = 1)).map
              (fun ν => if μ * (starRingEnd ℂ) ν = 1 then (N : ℝ)
                else -(2 / Complex.abs (μ * (starRingEnd ℂ) ν - 1))) =
              (t.filter (fun ν => ¬ μ * (starRingEnd ℂ) ν = 1)).map
                (fun ν => -(2 / Complex.abs (μ * (starRingEnd ℂ) ν - 1))) :=
            Multiset.map_congr rfl (fun ν hν => if_neg ((Multiset.mem_filter.mp hν).2))
          rw [hmapeq]
          induction (t.filter (fun ν => ¬ μ * (starRingEnd ℂ) ν = 1)) using
            Multiset.induction_on with
          | empty => simp
          | cons a s ih => simp only [Multiset.map_cons, Multiset.sum_cons, ih]; ring
        rw [h1, h2]
        ring
      have hsum_C : (t.map (fun ν => if μ * (starRingEnd ℂ) ν = 1 then (0 : ℝ)
          else 2 / Complex.abs (μ * (starRingEnd ℂ) ν - 1))).sum =
          ((t.filter (fun ν => ¬ μ * (starRingEnd ℂ) ν = 1)).map
            (fun ν => 2 / Complex.abs (μ * (starRingEnd ℂ) ν - 1))).sum := by
        conv_lhs => rw [← hsplit]
        rw [Multiset.map_add, Multiset.sum_add]
        have h1 : ((t.filter (fun ν => μ * (starRingEnd ℂ) ν = 1)).map
            (fun ν => if μ * (starRingEnd ℂ) ν = 1 then (0 : ℝ)
              else 2 / Complex.abs (μ * (starRingEnd ℂ) ν - 1))).sum = 0 := by
          have hmapeq : (t.filter (fun ν => μ * (starRingEnd ℂ) ν = 1)).map
              (fun ν => if μ * (starRingEnd ℂ) ν = 1 then (0 : ℝ)
                else 2 / Complex.abs (μ * (starRingEnd ℂ) ν - 1)) =
              (t.filter (fun ν => μ * (starRingEnd ℂ) ν = 1)).map (fun _ => (0 : ℝ)) :=
            Multiset.map_congr rfl (fun ν hν => if_pos (Multiset.of_mem_filter hν))
          rw [hmapeq]
          simp
        have h2 : ((t.filter (fun ν => ¬ μ * (starRingEnd ℂ) ν = 1)).map
            (fun ν => if μ * (starRingEnd ℂ) ν = 1 then (0 : ℝ)
              else 2 / Complex.abs (μ * (starRingEnd ℂ) ν - 1))).sum =
            ((t.filter (fun ν => ¬ μ * (starRingEnd ℂ) ν = 1)).map
              (fun ν => 2 / Complex.abs (μ * (starRingEnd ℂ) ν - 1))).sum := by
          exact congrArg Multiset.sum (Multiset.map_congr rfl
            (fun ν hν => if_neg ((Multiset.mem_filter.mp hν).2)))
        rw [h1, h2, zero_add]
      rw [hsum_low, hsum_C]
      have hN0 : (0 : ℝ) ≤ (N : ℝ) := Nat.cast_nonneg N
      nlinarith
    have houter := Multiset.sum_map_le_sum_map _ _ hinner
    refine le_trans (le_of_eq ?_) houter
    rw [msum_sub, Multiset.map_const', Multiset.sum_replicate, nsmul_eq_mul, hC0, hm]
  -- upper bound from the convergence hypothesis
  have hnsq0 : Filter.Tendsto (fun n => Complex.normSq ((t.map (fun μ => μ ^ n)).sum))
      Filter.atTop (nhds 0) := by
    have h1 : Filter.Tendsto (fun n => Complex.abs ((t.map (fun μ => μ ^ n)).sum))
        Filter.atTop (nhds 0) := by
      have h2 := hq.norm
      simpa using h2
    have h3 := h1.pow 2
    simp only [ne_eq, OfNat.ofNat_ne_zero, not_false_eq_true, zero_pow] at h3
    have h4 : ∀ n, Complex.abs ((t.map (fun μ => μ ^ n)).sum) ^ 2 =
        Complex.normSq ((t.map (fun μ => μ ^ n)).sum) := fun n => Complex.sq_abs _
    simpa [h4] using h3
  have hhalf : (0 : ℝ) < m / 2 := by linarith
  obtain ⟨n₀, hn₀⟩ := Filter.eventually_atTop.mp (hnsq0.eventually_lt_const hhalf)
  set B : ℝ := ∑ n ∈ Finset.range n₀, Complex.normSq ((t.map (fun μ => μ ^ n)).sum) with hB
  have hup : ∀ N : ℕ, n₀ ≤ N →
      ∑ n ∈ Finset.range N, Complex.normSq ((t.map (fun μ => μ ^ n)).sum) ≤
        B + ((N - n₀ : ℕ) : ℝ) * (m / 2) := by
    intro N hN
    rw [← Finset.sum_range_add_sum_Ico _ hN]
    have h1 : ∑ n ∈ Finset.Ico n₀ N, Complex.normSq ((t.map (fun μ => μ ^ n)).sum) ≤
        (Finset.Ico n₀ N).card • (m / 2) :=
      Finset.sum_le_card_nsmul _ _ _ (fun i hi =>
        le_of_lt (hn₀ i (Finset.mem_Ico.mp hi).1))
    rw [Nat.card_Ico, nsmul_eq_mul] at h1
    exact add_le_add_left h1 B
  -- combine for a contradiction
  obtain ⟨N1, hN1⟩ := exists_nat_gt ((C0 + B) / (m / 2))
  have hN1' : ((N1 : ℝ)) ≤ (max N1 n₀ : ℕ) := by exact_mod_cast Nat.le_max_left N1 n₀
  have h1 := hlow (max N1 n₀)
  have h2 := hup (max N1 n₀) (Nat.le_max_right N1 n₀)
  have h3 : (((max N1 n₀ : ℕ) - n₀ : ℕ) : ℝ) ≤ ((max N1 n₀ : ℕ) : ℝ) := by
    exact_mod_cast Nat.sub_le _ _
  have h4 : ((max N1 n₀ : ℕ) : ℝ) * (m / 2) ≤ C0 + B := by nlinarith
  have h5 : (C0 + B) / (m / 2) < ((max N1 n₀ : ℕ) : ℝ) := lt_of_lt_of_le hN1 hN1'
  have h6 : C0 + B < ((max N1 n₀ : ℕ) : ℝ) * (m / 2) := (div_lt_iff hhalf).mp h5
  linarith

theorem multiset_csSup_spec {s : Multiset ℂ} (hs : s ≠ 0) (f : ℂ → ℝ) :
    (∃ z ∈ s, f z = sSup {x : ℝ | ∃ z ∈ s, f z = x}) ∧
    (∀ z ∈ s, f z ≤ sSup {x : ℝ | ∃ z ∈ s, f z = x}) := by
  classical
  have hset : {x : ℝ | ∃ z ∈ s, f z = x} = ↑(s.toFinset.image f) := by
    ext x
    simp only [Set.mem_setOf_eq, Finset.coe_image, Set.mem_image, Finset.mem_coe,
      Multiset.mem_toFinset]
  have hfin : {x : ℝ | ∃ z ∈ s, f z = x}.Finite := by
    rw [hset]; exact (s.toFinset.image f).finite_toSet
  have hne : {x : ℝ | ∃ z ∈ s, f z = x}.Nonempty := by
    obtain ⟨a, ha⟩ := Multiset.exists_mem_of_ne_zero hs
    exact ⟨f a, a, ha, rfl⟩
  constructor
  · obtain ⟨z, hz, hfz⟩ := hne.csSup_mem hfin
    exact ⟨z, hz, hfz⟩
  · intro z hz
    exact le_csSup (hfin.bddAbove) ⟨z, hz, rfl⟩

theorem radius_mem_roots {K : ℕ} (hK : 0 < K) (M : Matrix (Fin K) (Fin K) ℝ)
    (hM : ∀ i j, 0 ≤ M i j) :
    ((sSup {x : ℝ | ∃ z ∈ ((M.map (fun a : ℝ => (a : ℂ))).charpoly).roots,
        Complex.abs z = x} : ℝ) : ℂ) ∈
      ((M.map (fun a : ℝ => (a : ℂ))).charpoly).roots := by
  classical
  set R := ((M.map (fun a : ℝ => (a : ℂ))).charpoly).roots with hR
  have hRcard : Multiset.card R = K := by
    have h := (Polynomial.splits_iff_card_roots
      (p := (M.map (fun a : ℝ => (a : ℂ))).charpoly)).mp (IsAlgClosed.splits_codomain _)
    rw [hR, h, Matrix.charpoly_natDegree_eq_dim, Fintype.card_fin]
  have hRne : R ≠ 0 := by
    rw [← Multiset.card_pos, hRcard]
    exact hK
  obtain ⟨⟨z0, hz0, hz0r⟩, hub⟩ := multiset_csSup_spec hRne Complex.abs
  set r := sSup {x : ℝ | ∃ z ∈ R, Complex.abs z = x} with hrdef
  have hr0 : 0 ≤ r := by
    rw [← hz0r]
    exact AbsoluteValue.nonneg _ z0
  by_contra hnot
  rcases eq_or_lt_of_le hr0 with hr | hrpos
  · apply hnot
    have hz00 : z0 = 0 := by
      have h1 : Complex.abs z0 = 0 := by rw [hz0r, ← hr]
      exact (AbsoluteValue.eq_zero _).mp h1
    have : ((r : ℝ) : ℂ) = 0 := by rw [← hr]; simp
    rw [this]
    rw [hz00] at hz0
    exact hz0
  · have ha0 : ∀ n, 0 ≤ (M ^ n).trace := by
      intro n
      rw [Matrix.trace]
      exact Finset.sum_nonneg fun i _ => pow_entry_nonneg M hM n i i
    have haroots : ∀ n, (((M ^ n).trace : ℝ) : ℂ) = (R.map (· ^ n)).sum := by
      intro n
      rw [← map_pow_trace M n, trace_pow_eq_sum_pow_roots]
    have hrne1 : ∀ z ∈ R, z / (r : ℂ) ≠ 1 := by
      intro z hz h1
      apply hnot
      have hr' : ((r : ℝ) : ℂ) ≠ 0 := by
        simp only [ne_eq, Complex.ofReal_eq_zero]
        exact ne_of_gt hrpos
      have h2 : z = (r : ℂ) := by
        field_simp at h1
        exact h1
      rw [← h2]
      exact hz
    have habs_le1 : ∀ z ∈ R, Complex.abs (z / (r : ℂ)) ≤ 1 := by
      intro z hz
      rw [map_div₀, Complex.abs_ofReal, abs_of_pos hrpos]
      exact (div_le_one hrpos).mpr (hub z hz)
    have hterm_eq : ∀ n, (((M ^ n).trace * (1 / r) ^ n : ℝ) : ℂ) =
        (R.map (fun z => (z / (r : ℂ)) ^ n)).sum := by
      intro n
      push_cast
      rw [haroots n, ← Multiset.sum_map_mul_right]
      apply congrArg Multiset.sum
      apply Multiset.map_congr rfl
      intro z _
      rw [div_pow, div_pow, one_pow]
      ring
    have hbound : ∀ N, ∑ n ∈ Finset.range N, (M ^ n).trace * (1 / r) ^ n ≤
        (R.map (fun z => 2 / Complex.abs (z / (r : ℂ) - 1))).sum := by
      intro N
      have hcast : ((∑ n ∈ Finset.range N, (M ^ n).trace * (1 / r) ^ n : ℝ) : ℂ) =
          (R.map (fun z => ∑ n ∈ Finset.range N, (z / (r : ℂ)) ^ n)).sum := by
        rw [Complex.ofReal_sum]
        rw [Finset.sum_congr rfl (fun n _ => hterm_eq n)]
        exact msum_swap R N _
      have hnorm : Complex.abs ((R.map (fun z =>
          ∑ n ∈ Finset.range N, (z / (r : ℂ)) ^ n)).sum) ≤
          (R.map (fun z => 2 / Complex.abs (z / (r : ℂ) - 1))).sum := by
        have h1 := norm_multiset_sum_le (R.map (fun z =>
          ∑ n ∈ Finset.range N, (z / (r : ℂ)) ^ n))
        rw [Multiset.map_map] at h1
        refine le_trans h1 ?_
        apply Multiset.sum_map_le_sum_map
        intro z hz
        simp only [Function.comp_apply, Complex.norm_eq_abs]
        have hb : 0 < Complex.abs (z / (r : ℂ) - 1) := by
          rw [AbsoluteValue.pos_iff]
          exact sub_ne_zero.mpr (hrne1 z hz)
        rw [geom_sum_eq (hrne1 z hz), map_div₀, div_le_div_iff_of_pos_right hb]
        have h2 := norm_sub_le ((z / (r : ℂ)) ^ N) (1 : ℂ)
        rw [Complex.norm_eq_abs] at h2
        refine le_trans h2 ?_
        simp only [norm_pow, norm_one]
        have h3 : ‖z / (r : ℂ)‖ ^ N ≤ 1 := by
          apply pow_le_one₀ (norm_nonneg _)
          rw [Complex.norm_eq_abs]
          exact habs_le1 z hz
        linarith
      calc ∑ n ∈ Finset.range N, (M ^ n).trace * (1 / r) ^ n
          ≤ |∑ n ∈ Finset.range N, (M ^ n).trace * (1 / r) ^ n| := le_abs_self _
        _ = Complex.abs ((∑ n ∈ Finset.range N, (M ^ n).trace * (1 / r) ^ n : ℝ) : ℂ) :=
            (Complex.abs_ofReal _).symm
        _ = Complex.abs ((R.map (fun z =>
              ∑ n ∈ Finset.range N, (z / (r : ℂ)) ^ n)).sum) := by rw [hcast]
        _ ≤ _ := hnorm
    have hsummable : Summable (fun n => (M ^ n).trace * (1 / r) ^ n) :=
      summable_of_sum_range_le
        (fun n => mul_nonneg (ha0 n) (pow_nonneg (by positivity) n)) hbound
    have htend0 : Tendsto (fun n => (M ^ n).trace * (1 / r) ^ n) atTop (nhds 0) :=
      hsummable.tendsto_atTop_zero
    have htend0c : Tendsto (fun n => (R.map (fun z => (z / (r : ℂ)) ^ n)).sum)
        atTop (nhds 0) := by
      have h1 : Tendsto (fun n => (((M ^ n).trace * (1 / r) ^ n : ℝ) : ℂ))
          atTop (nhds 0) := by
        have h2 := (Complex.continuous_ofReal.tendsto 0).comp htend0
        rw [Complex.ofReal_zero] at h2
        exact h2
      have h2 : (fun n => (((M ^ n).trace * (1 / r) ^ n : ℝ) : ℂ)) =
          fun n => (R.map (fun z => (z / (r : ℂ)) ^ n)).sum := funext hterm_eq
      rwa [h2] at h1
    have hTc : Tendsto (fun n => ((R.filter (fun z => ¬ Complex.abs z = r)).map
        (fun z => (z / (r : ℂ)) ^ n)).sum) atTop (nhds 0) := by
      apply msum_tendsto_zero
      intro z hz
      apply tendsto_pow_atTop_nhds_zero_of_norm_lt_one
      have hzR : z ∈ R := Multiset.mem_of_mem_filter hz
      have hlt : Complex.abs z < r :=
        lt_of_le_of_ne (hub z hzR) ((Multiset.mem_filter.mp hz).2)
      rw [Complex.norm_eq_abs, map_div₀, Complex.abs_ofReal, abs_of_pos hrpos]
      exact (div_lt_one hrpos).mpr hlt
    have hTa : Tendsto (fun n => ((R.filter (fun z => Complex.abs z = r)).map
        (fun z => (z / (r : ℂ)) ^ n)).sum) atTop (nhds 0) := by
      have hsplit : ∀ n, ((R.filter (fun z => Complex.abs z = r)).map
          (fun z => (z / (r : ℂ)) ^ n)).sum =
          (R.map (fun z => (z / (r : ℂ)) ^ n)).sum -
          ((R.filter (fun z => ¬ Complex.abs z = r)).map
            (fun z => (z / (r : ℂ)) ^ n)).sum := by
        intro n
        have h := Multiset.filter_add_not (fun z => Complex.abs z = r) R
        have hadd : ((R.filter (fun z => Complex.abs z = r)).map
            (fun z => (z / (r : ℂ)) ^ n)).sum +
            ((R.filter (fun z => ¬ Complex.abs z = r)).map
              (fun z => (z / (r : ℂ)) ^ n)).sum =
            (R.map (fun z => (z / (r : ℂ)) ^ n)).sum := by
          conv_rhs => rw [← h]
          rw [Multiset.map_add, Multiset.sum_add]
        exact eq_sub_of_add_eq hadd
      have h2 := htend0c.sub hTc
      simp only [sub_zero] at h2
      have h3 : (fun n => ((R.filter (fun z => Complex.abs z = r)).map
          (fun z => (z / (r : ℂ)) ^ n)).sum) =
          fun n => ((R.map (fun z => (z / (r : ℂ)) ^ n)).sum -
          ((R.filter (fun z => ¬ Complex.abs z = r)).map
            (fun z => (z / (r : ℂ)) ^ n)).sum) := funext hsplit
      rw [h3]
      exact h2
    have hz0T : z0 ∈ R.filter (fun z => Complex.abs z = r) :=
      Multiset.mem_filter.mpr ⟨hz0, hz0r⟩
    have hTne : ((R.filter (fun z => Complex.abs z = r)).map
        (fun z => z / (r : ℂ))) ≠ 0 := by
      intro h0
      have h1 := Multiset.map_eq_zero.mp h0
      rw [h1] at hz0T
      exact Multiset.not_mem_zero z0 hz0T
    have hTu : ∀ μ ∈ (R.filter (fun z => Complex.abs z = r)).map
        (fun z => z / (r : ℂ)), Complex.abs μ = 1 := by
      intro μ hμ
      obtain ⟨z, hz, rfl⟩ := Multiset.mem_map.mp hμ
      rw [map_div₀, Complex.abs_ofReal, abs_of_pos hrpos,
        (Multiset.mem_filter.mp hz).2]
      field_simp
    apply unit_powsum_not_tendsto_zero
      ((R.filter (fun z => Complex.abs z = r)).map (fun z => z / (r : ℂ))) hTne hTu
    have h4 : (fun n => (((R.filter (fun z => Complex.abs z = r)).map
        (fun z => z / (r : ℂ))).map (fun μ => μ ^ n)).sum) =
        fun n => ((R.filter (fun z => Complex.abs z = r)).map
          (fun z => (z / (r : ℂ)) ^ n)).sum := by
      funext n
      rw [Multiset.map_map]
      rfl
    rw [h4]
    exact hTa

theorem maxRe_eq_radius {K : ℕ} (hK : 0 < K) (M : Matrix (Fin K) (Fin K) ℝ)
    (hM : ∀ i j, 0 ≤ M i j) :
    sSup {x : ℝ | ∃ z ∈ ((M.map (fun a : ℝ => (a : ℂ))).charpoly).roots, z.re = x} =
    sSup {x : ℝ | ∃ z ∈ ((M.map (fun a : ℝ => (a : ℂ))).charpoly).roots,
      Complex.abs z = x} := by
  set R := ((M.map (fun a : ℝ => (a : ℂ))).charpoly).roots with hR
  have hRcard : Multiset.card R = K := by
    have h := (Polynomial.splits_iff_card_roots
      (p := (M.map (fun a : ℝ => (a : ℂ))).charpoly)).mp (IsAlgClosed.splits_codomain _)
    rw [hR, h, Matrix.charpoly_natDegree_eq_dim, Fintype.card_fin]
  have hRne : R ≠ 0 := by
    rw [← Multiset.card_pos, hRcard]
    exact hK
  obtain ⟨⟨z1, hz1, hz1r⟩, hub_re⟩ := multiset_csSup_spec hRne Complex.re
  obtain ⟨⟨z0, hz0, hz0r⟩, hub_abs⟩ := multiset_csSup_spec hRne Complex.abs
  apply le_antisymm
  · rw [← hz1r]
    exact le_trans (Complex.re_le_abs z1) (hub_abs z1 hz1)
  · have hmem := radius_mem_roots hK M hM
    have h1 := hub_re _ hmem
    rwa [Complex.ofReal_re] at h1


/-- C1: for every network Hawkes model (`K >= 1`) whose weight model holds an
adjacency matrix `A` with entries in `{0,1}` and a nonnegative weight matrix
`W`, `check_stability()` returns true iff the spectral radius of the
elementwise product `A*W` is strictly less than 1: for such (entrywise
nonnegative) matrices the largest real part of the eigenvalues, which the
code compares against 1, equals the spectral radius. -/
theorem network_check_stability_iff {K B C : ℕ} (hK : 0 < K)
    (M : NetworkModel K B C ℝ)
    (hA : ∀ i j, M.A i j = 0 ∨ M.A i j = 1) (hW : ∀ i j, 0 ≤ M.W i j) :
    network_check_stability M ↔ spectral_radius (elem_mul M.A M.W) < 1 := by
  have hM : ∀ i j, 0 ≤ elem_mul M.A M.W i j := by
    intro i j
    rcases hA i j with h | h
    · show 0 ≤ M.A i j * M.W i j
      rw [h, zero_mul]
    · show 0 ≤ M.A i j * M.W i j
      rw [h, one_mul]
      exact hW i j
  unfold network_check_stability np_amax_re spectral_radius np_eigvals
  rw [maxRe_eq_radius hK (elem_mul M.A M.W) hM]

/-- Witness for C1 at a concrete model. -/
theorem network_check_stability_iff_witness :
    network_check_stability netExR ↔ spectral_radius (elem_mul netExR.A netExR.W) < 1 :=
  network_check_stability_iff Nat.one_pos netExR (fun _ _ => Or.inl rfl)
    (fun _ _ => le_refl 0)

end PyHawkes
